import Mathlib

/-!
# Impersonation round tripper: SubjectAccessReview before forwarding

A shallow embedding of `server/auth/round_trippers.go` (the `RoundTrip` method of
`impersonateRoundTripper`) and of `server/auth/impersonate/client.go` (the `AccessReview`
method of `client`), followed by theorems about them.

Go strings are Lean `String`s. The pattern of `RoundTrip` only distinguishes `/` and the
newline from all other characters, so the difference between bytes and runes plays no role.
Logging calls are left out. The `context.Context` argument only carries cancellation and the
client handle; cancellation is not modelled.
-/

namespace Argo

/-! ## The fragment of Go's `regexp` used by the path pattern -/

/-- Parsed pattern, restricted to the operators the path pattern uses. `plusNotIn ex` is a
greedy `[^…]+` over the negated class excluding the characters `ex`; `quest` is the greedy `?`;
`capture` carries the group number and name; `beginText`/`endText` are `^` and `$` without the
multi-line flag. -/
inductive Regexp where
  | literal (s : List Char)
  | plusNotIn (excluded : List Char)
  | capture (idx : Nat) (name : String) (sub : Regexp)
  | concat (a b : Regexp)
  | alternate (a b : Regexp)
  | quest (sub : Regexp)
  | beginText
  | endText
  deriving Repr

/-- Capture store of a match attempt: the most recent text of a group comes first. -/
abbrev Caps := List (Nat × List Char)

/-- The input after the literal `lit`, when the input starts with it. -/
def dropLiteral : List Char → List Char → Option (List Char)
  | [], inp => some inp
  | _ :: _, [] => none
  | c :: cs, d :: ds => if c = d then dropLiteral cs ds else none

/-- Greedy continuation of `[^…]+` once one character is consumed: first try to consume one
more character, and only when everything after that fails, stop here. -/
def plusLoop (ex : List Char) (k : List Char → Option Caps) : List Char → Option Caps
  | [] => k []
  | c :: cs =>
    if c ∈ ex then k (c :: cs)
    else
      match plusLoop ex k cs with
      | some r => some r
      | none => k (c :: cs)

/-- Greedy `[^…]+`: one character outside `ex` is required, then `plusLoop`. -/
def plusNotInRun (ex : List Char) (k : List Char → Option Caps) : List Char → Option Caps
  | [] => none
  | c :: cs => if c ∈ ex then none else plusLoop ex k cs

/-- Backtracking matcher in continuation-passing style. `text` is the whole subject, `inp` the
part not yet consumed, `k` what has to match afterwards. Choices are tried in the order of
Go's leftmost-first rule: the left branch of `|` before the right one, the body of `?` before
skipping it, a longer repetition before a shorter one. -/
def Regexp.run (text : List Char) :
    Regexp → List Char → Caps → (List Char → Caps → Option Caps) → Option Caps
  | .literal l, inp, caps, k =>
    match dropLiteral l inp with
    | some rest => k rest caps
    | none => none
  | .plusNotIn ex, inp, caps, k => plusNotInRun ex (fun rest => k rest caps) inp
  | .capture i _ r, inp, caps, k =>
    r.run text inp caps
      (fun rest caps1 => k rest ((i, inp.take (inp.length - rest.length)) :: caps1))
  | .concat a b, inp, caps, k =>
    a.run text inp caps (fun rest caps1 => b.run text rest caps1 k)
  | .alternate a b, inp, caps, k =>
    match a.run text inp caps k with
    | some r => some r
    | none => b.run text inp caps k
  | .quest r, inp, caps, k =>
    match r.run text inp caps k with
    | some res => some res
    | none => k inp caps
  | .beginText, inp, caps, k => if inp.length = text.length then k inp caps else none
  | .endText, inp, caps, k =>
    match inp with
    | [] => k [] caps
    | _ :: _ => none

/-- Names of the capture groups in the order of their opening parentheses. -/
def Regexp.groupNames : Regexp → List String
  | .literal _ => []
  | .plusNotIn _ => []
  | .capture _ name r => name :: r.groupNames
  | .concat a b => a.groupNames ++ b.groupNames
  | .alternate a b => a.groupNames ++ b.groupNames
  | .quest r => r.groupNames
  | .beginText => []
  | .endText => []

/-- Go `(*Regexp).SubexpNames`: element 0 is the empty name of the whole match. -/
def Regexp.SubexpNames (re : Regexp) : List String := "" :: re.groupNames

/-- Go `(*Regexp).NumSubexp`. -/
def Regexp.NumSubexp (re : Regexp) : Nat := re.groupNames.length

/-- Position of the first element equal to `name`, counted from `i`, or `-1`. -/
def firstIndex (name : String) : List String → Nat → Int
  | [], _ => -1
  | s :: rest, i => if name = s then (i : Int) else firstIndex name rest (i + 1)

/-- Go `(*Regexp).SubexpIndex`: index of the first group with that name, `-1` when there is none
or when the name is empty. -/
def Regexp.SubexpIndex (re : Regexp) (name : String) : Int :=
  if name = "" then -1 else firstIndex name re.SubexpNames 0

/-- One match attempt starting at the suffix `inp` of `text`; group 0 spans the whole match. -/
def Regexp.matchAt (re : Regexp) (text inp : List Char) : Option Caps :=
  (Regexp.capture 0 "" re).run text inp [] (fun _ caps => some caps)

/-- Leftmost search: the start positions are tried from left to right. -/
def Regexp.searchFrom (re : Regexp) (text : List Char) : List Char → Option Caps
  | [] => re.matchAt text []
  | c :: cs =>
    match re.matchAt text (c :: cs) with
    | some caps => some caps
    | none => re.searchFrom text cs

/-- Text of group `i` in a finished match; a group that took no part gives the empty string. -/
def groupText (caps : Caps) (i : Nat) : String :=
  match caps.lookup i with
  | some t => String.mk t
  | none => ""

/-- Go `(*Regexp).FindStringSubmatch`: `none` is the nil slice, otherwise the texts of groups
`0 .. NumSubexp` of the leftmost match. -/
def Regexp.FindStringSubmatch (re : Regexp) (s : String) : Option (List String) :=
  match re.searchFrom s.data s.data with
  | none => none
  | some caps => some ((List.range (re.NumSubexp + 1)).map (groupText caps))

/-! ## gRPC status errors and the Kubernetes review types -/

/-- The two gRPC codes the code uses. -/
inductive Code where
  | Internal
  | PermissionDenied
  deriving DecidableEq, Repr

/-- A Go `error` value: a gRPC status error built by `status.Error`, or any other error
(for instance a transport failure of the oracle call), identified by its text. -/
inductive GoError where
  | status (code : Code) (msg : String)
  | other (text : String)
  deriving DecidableEq, Repr

/-- Kubernetes `authorization/v1.ResourceAttributes`, the fields the code fills. -/
structure ResourceAttributes where
  Namespace : String
  Verb : String
  Group : String
  Version : String
  Resource : String
  Name : String
  Subresource : String
  deriving DecidableEq, Repr

/-- Kubernetes `authorization/v1.SubjectAccessReviewSpec`, the fields the code fills. -/
structure SubjectAccessReviewSpec where
  User : String
  ResourceAttributes : ResourceAttributes
  deriving DecidableEq, Repr

/-- Kubernetes `authorization/v1.SubjectAccessReviewStatus`, the field the code reads. -/
structure SubjectAccessReviewStatus where
  Allowed : Bool
  deriving DecidableEq, Repr

/-- Kubernetes `authorization/v1.SubjectAccessReview`. -/
structure SubjectAccessReview where
  Spec : SubjectAccessReviewSpec
  Status : SubjectAccessReviewStatus
  deriving DecidableEq, Repr

/-- The oracle as `AccessReview` reaches it:
`kubeClient.AuthorizationV1().SubjectAccessReviews().Create`, returning Go's pair of the review
and the error. -/
abbrev KubeInterface := SubjectAccessReview → SubjectAccessReview × Option GoError

/-! ## `impersonate/client.go` -/

/-- Result of an `AccessReview` call: the returned error (`none` is nil) and the queries that
were sent to the oracle, in order. -/
structure ReviewResult where
  err : Option GoError
  calls : List SubjectAccessReview
  deriving DecidableEq, Repr

/-- The `Client` interface. -/
structure Client where
  AccessReview : (username ns verb resourceGroup resourceVersion resourceType resourceName
    subresource : String) → ReviewResult

/-- The `client` struct. -/
structure client where
  kubeClient : KubeInterface

/-- Go `strings.TrimPrefix`. -/
def TrimPrefix (s pre : String) : String :=
  match dropLiteral pre.data s.data with
  | some rest => String.mk rest
  | none => s

/-- The human-friendly resource string of the denial branch (client.go lines 59-75). -/
def resourceString (resourceGroup resourceVersion resourceType resourceName subresource : String) :
    String :=
  let r0 := ""
  let r1 := if resourceGroup ≠ "" then r0 ++ resourceGroup else r0
  let r2 := if resourceVersion ≠ "" then r1 ++ ("/" ++ resourceVersion) else r1
  let r3 := if resourceType ≠ "" then r2 ++ ("/" ++ resourceType) else r2
  let r4 := if resourceName ≠ "" then r3 ++ ("/" ++ resourceName) else r3
  let r5 := if subresource ≠ "" then r4 ++ ("/" ++ subresource) else r4
  TrimPrefix r5 "/"

/-- The query `AccessReview` sends (client.go lines 38-53). -/
def reviewQuery (username ns verb resourceGroup resourceVersion resourceType resourceName
    subresource : String) : SubjectAccessReview :=
  { Spec :=
      { User := username
        ResourceAttributes :=
          { Namespace := ns
            Verb := verb
            Group := resourceGroup
            Version := resourceVersion
            Resource := resourceType
            Name := resourceName
            Subresource := subresource } }
    Status := { Allowed := false } }

/-- The method `(*client).AccessReview` (client.go lines 27-89). -/
def client.AccessReview (s : client) (username ns verb resourceGroup resourceVersion resourceType
    resourceName subresource : String) : ReviewResult :=
  let query := reviewQuery username ns verb resourceGroup resourceVersion resourceType
    resourceName subresource
  match s.kubeClient query with
  | (_, some err) => { err := some err, calls := [query] }
  | (review, none) =>
    if !review.Status.Allowed then
      let rs := resourceString resourceGroup resourceVersion resourceType resourceName subresource
      { err := some (GoError.status Code.PermissionDenied
          ("user '" ++ username ++ "' is not allowed to '" ++ verb ++ "' " ++ rs ++
            " in namespace '" ++ ns ++ "'"))
        calls := [query] }
    else { err := none, calls := [query] }

/-- The constructor `NewClient`: the interface value and a nil error. -/
def NewClient (kubeClient : KubeInterface) : Client × Option GoError :=
  ({ AccessReview := (client.mk kubeClient).AccessReview }, none)

/-! ## `round_trippers.go` -/

/-- Modelled from the spec: the request context and `GetImpersonateClient` are not among the
source files; per the spec the context either carries the oracle client handle or it is
absent. -/
structure Context where
  impersonateClient : Option Client

/-- Modelled from the spec: `GetImpersonateClient` is not among the source files; it returns the
oracle client handle attached to the context, nil when none is attached. -/
def GetImpersonateClient (ctx : Context) : Option Client := ctx.impersonateClient

/-- The parts of `net/url.URL` the code reads. `rendered` is the text `%s` prints for the URL
(the library's `String` method), carried as data. -/
structure URL where
  Path : String
  RawQuery : String
  rendered : String

/-- The parts of `http.Request` the code reads. -/
structure Request where
  Method : String
  URL : URL
  ctx : Context

/-- An `http.Response`, which the code only passes along. -/
structure Response where
  StatusCode : Nat
  Body : String
  deriving DecidableEq, Repr

/-- An `http.RoundTripper`: Go's pair of response and error. -/
abbrev RoundTripper := Request → Option Response × Option GoError

/-- The struct `impersonateRoundTripper`. -/
structure impersonateRoundTripper where
  rt : RoundTripper
  username : String

/-- The constructor `NewImpersonateRoundTripper`. -/
def NewImpersonateRoundTripper (rt : RoundTripper) (username : String) : impersonateRoundTripper :=
  { rt := rt, username := username }

/-- What a call of `RoundTrip` does to the outside: queries sent to the oracle and requests
handed to the inner transport. -/
inductive Event where
  | oracle (query : SubjectAccessReview)
  | forward (req : Request)

/-- Return values of `RoundTrip` (`none` is nil) together with the events of the call. -/
structure Outcome where
  resp : Option Response
  err : Option GoError
  trace : List Event

/-- The compiled pattern of `RoundTrip` (round_trippers.go lines 38-40):
`^(?:/api|/apis/(?P<GROUP>[^/]+))/(?P<VERSION>[^/]+)(?:/namespaces/(?P<NAMESPACE>[^/]+))?`
`/(?P<RESOURCETYPE>[^/\n]+)(?:/(?P<NAME>[^/\n]+))?(?:/(?P<SUBRESOURCE>[^/\n]+))?$`. -/
def pathPattern : Regexp :=
  .concat .beginText <|
  .concat (.alternate (.literal ['/', 'a', 'p', 'i'])
    (.concat (.literal ['/', 'a', 'p', 'i', 's', '/']) (.capture 1 "GROUP" (.plusNotIn ['/'])))) <|
  .concat (.literal ['/']) <|
  .concat (.capture 2 "VERSION" (.plusNotIn ['/'])) <|
  .concat (.quest (.concat (.literal ['/', 'n', 'a', 'm', 'e', 's', 'p', 'a', 'c', 'e', 's', '/'])
    (.capture 3 "NAMESPACE" (.plusNotIn ['/'])))) <|
  .concat (.literal ['/']) <|
  .concat (.capture 4 "RESOURCETYPE" (.plusNotIn ['/', '\n'])) <|
  .concat (.quest (.concat (.literal ['/']) (.capture 5 "NAME" (.plusNotIn ['/', '\n'])))) <|
  .concat (.quest (.concat (.literal ['/']) (.capture 6 "SUBRESOURCE" (.plusNotIn ['/', '\n']))))
  .endText

/-- The values `RoundTrip` reads from the URL path, named after its local variables. -/
structure ResourceDescriptor where
  ns : String
  resourceGroup : String
  resourceVersion : String
  resourceType : String
  resourceName : String
  subresource : String
  deriving DecidableEq, Repr

/-- Go slice indexing `matches[i]` for an index the code has checked against `-1`. -/
def submatch (matched : List String) (i : Int) : String := matched.getD i.toNat ""

/-- Extraction of the resource attributes from the URL path (round_trippers.go lines 37-68);
`none` is the branch `matches == nil`. -/
def extractResource (urlPath : String) : Option ResourceDescriptor :=
  let re := pathPattern
  match re.FindStringSubmatch urlPath with
  | none => none
  | some matched =>
    let ns := if re.SubexpIndex "NAMESPACE" ≠ -1 then submatch matched (re.SubexpIndex "NAMESPACE")
      else ""
    let resourceGroup := if re.SubexpIndex "GROUP" ≠ -1 then
      submatch matched (re.SubexpIndex "GROUP") else ""
    let resourceVersion := if re.SubexpIndex "VERSION" ≠ -1 then
      submatch matched (re.SubexpIndex "VERSION") else ""
    let resourceType := if re.SubexpIndex "RESOURCETYPE" ≠ -1 then
      submatch matched (re.SubexpIndex "RESOURCETYPE") else ""
    let resourceName := if re.SubexpIndex "NAME" ≠ -1 then
      submatch matched (re.SubexpIndex "NAME") else ""
    let subresource := if re.SubexpIndex "NAME" ≠ -1 then
      submatch matched (re.SubexpIndex "NAME") else ""
    some
      { ns := ns
        resourceGroup := resourceGroup
        resourceVersion := resourceVersion
        resourceType := resourceType
        resourceName := resourceName
        subresource := subresource }

/-- The resource verb of a request (round_trippers.go lines 70-97); the error is the `default`
branch of the switch. -/
def requestVerb (req : Request) : Except GoError String :=
  if req.Method = "" ∨ req.Method = "GET" then .ok "get"
  else if req.Method = "POST" then .ok "create"
  else if req.Method = "PUT" then .ok "update"
  else if req.Method = "PATCH" then .ok "patch"
  else if req.Method = "DELETE" then .ok "delete"
  else .error (GoError.status Code.Internal
    ("Could not calcluate kubernetes resource verb for " ++ req.Method ++ " on " ++
      req.URL.rendered))

/-- The method `(*impersonateRoundTripper).RoundTrip` (round_trippers.go lines 25-116). -/
def impersonateRoundTripper.RoundTrip (rt : impersonateRoundTripper) (req : Request) : Outcome :=
  match GetImpersonateClient req.ctx with
  | none =>
    { resp := none
      err := some (GoError.status Code.Internal
        "`impersonate.Client` is missing from HTTP context")
      trace := [] }
  | some impersonateClient =>
    let urlPath := req.URL.Path
    match extractResource urlPath with
    | none =>
      { resp := none
        err := some (GoError.status Code.Internal
          ("Invalid Kubernetes Resource URI path: " ++ urlPath))
        trace := [] }
    | some d =>
      match requestVerb req with
      | .error e => { resp := none, err := some e, trace := [] }
      | .ok verb =>
        let review := impersonateClient.AccessReview rt.username d.ns verb d.resourceGroup
          d.resourceVersion d.resourceType d.resourceName d.subresource
        match review.err with
        | some err => { resp := none, err := some err, trace := review.calls.map Event.oracle }
        | none =>
          let inner := rt.rt req
          { resp := inner.1
            err := inner.2
            trace := review.calls.map Event.oracle ++ [Event.forward req] }

/-! ## Definitions used to state and prove the properties -/

/-- Whether an event is a call of the inner transport. -/
def Event.isForward : Event → Bool
  | .forward _ => true
  | .oracle _ => false

/-- The six method strings of the switch in `RoundTrip`. -/
def mappedMethods : List String := ["", "GET", "POST", "PUT", "PATCH", "DELETE"]

/-- A string starts with the character `/`. -/
def startsWithSlash (s : String) : Prop := s.data.head? = some '/'

instance (s : String) : Decidable (startsWithSlash s) := by
  unfold startsWithSlash; infer_instance

/-- The label as the specification words it: the non-empty values, in order, joined by `/`. -/
def joinNonEmpty (xs : List String) : String := String.intercalate "/" (xs.filter (fun x => x ≠ ""))

/-- Declarative reading of a pattern: `r` consumes a prefix of `inp`, leaving `out`, and turns
the capture store `c` into `c1`. -/
def Regexp.Sem (text : List Char) : Regexp → List Char → Caps → List Char → Caps → Prop
  | .literal l, inp, c, out, c1 => inp = l ++ out ∧ c1 = c
  | .plusNotIn ex, inp, c, out, c1 =>
    ∃ seg, seg ≠ [] ∧ (∀ x ∈ seg, x ∉ ex) ∧ inp = seg ++ out ∧ c1 = c
  | .capture i _ r, inp, c, out, c1 =>
    ∃ c0 seg, r.Sem text inp c out c0 ∧ inp = seg ++ out ∧ c1 = (i, seg) :: c0
  | .concat a b, inp, c, out, c1 =>
    ∃ mid cm, a.Sem text inp c mid cm ∧ b.Sem text mid cm out c1
  | .alternate a b, inp, c, out, c1 => a.Sem text inp c out c1 ∨ b.Sem text inp c out c1
  | .quest r, inp, c, out, c1 => r.Sem text inp c out c1 ∨ (out = inp ∧ c1 = c)
  | .beginText, inp, c, out, c1 => inp.length = text.length ∧ out = inp ∧ c1 = c
  | .endText, inp, c, out, c1 => inp = [] ∧ out = [] ∧ c1 = c

/-- A non-empty run of characters none of which is in `ex`. -/
def segment (ex : List Char) (seg : List Char) : Prop := seg ≠ [] ∧ ∀ x ∈ seg, x ∉ ex

/-- One way of reading a path along the pattern: the text of each group, `none` for an optional
part that is skipped. -/
structure PathParse where
  group : Option (List Char)
  version : List Char
  ns : Option (List Char)
  rtype : List Char
  name : Option (List Char)
  sub : Option (List Char)

/-- The text of an optional part: the literal in front of the group and the group. -/
def optPart (lit : List Char) : Option (List Char) → List Char
  | none => []
  | some x => lit ++ x

/-- The capture entry of an optional group. -/
def optCap (i : Nat) : Option (List Char) → Caps
  | none => []
  | some x => [(i, x)]

/-- Every group of the reading is a segment over its character class. -/
def PathParse.Valid (p : PathParse) : Prop :=
  (∀ g, p.group = some g → segment ['/'] g) ∧ segment ['/'] p.version ∧
  (∀ n, p.ns = some n → segment ['/'] n) ∧ segment ['/', '\n'] p.rtype ∧
  (∀ m, p.name = some m → segment ['/', '\n'] m) ∧
  (∀ s, p.sub = some s → segment ['/', '\n'] s)

/-- The first alternation of the pattern, as text. -/
def headPart : Option (List Char) → List Char
  | none => ['/', 'a', 'p', 'i']
  | some g => ['/', 'a', 'p', 'i', 's', '/'] ++ g

/-- The path a reading stands for. -/
def PathParse.render (p : PathParse) : List Char :=
  headPart p.group ++ ('/' :: p.version ++
    (optPart ['/', 'n', 'a', 'm', 'e', 's', 'p', 'a', 'c', 'e', 's', '/'] p.ns ++
      ('/' :: p.rtype ++ (optPart ['/'] p.name ++ optPart ['/'] p.sub))))

/-- The capture store the matcher ends with on a reading. -/
def PathParse.caps (p : PathParse) : Caps :=
  (0, p.render) :: (optCap 6 p.sub ++ (optCap 5 p.name ++ ((4, p.rtype) ::
    (optCap 3 p.ns ++ ((2, p.version) :: optCap 1 p.group)))))

/-- The text of an optional group as Go reports it: empty when the group took no part. -/
def optText : Option (List Char) → String
  | none => ""
  | some x => String.mk x

/-- The values `extractResource` reads off a reading; the subresource is read from group
`NAME`, as in the source. -/
def PathParse.descriptor (p : PathParse) : ResourceDescriptor :=
  { ns := optText p.ns
    resourceGroup := optText p.group
    resourceVersion := String.mk p.version
    resourceType := String.mk p.rtype
    resourceName := optText p.name
    subresource := optText p.name }

/-- Go `strings.HasPrefix`, as a proposition. -/
def HasPrefix (s pre : String) : Prop := pre.data <+: s.data

instance (s pre : String) : Decidable (HasPrefix s pre) := by
  unfold HasPrefix; infer_instance

/-- The queries among the events of a call, in order. -/
def oracleQueries : List Event → List SubjectAccessReview
  | [] => []
  | .oracle q :: rest => q :: oracleQueries rest
  | .forward _ :: rest => oracleQueries rest

/-- An oracle that allows every query. -/
def oracleAllow : KubeInterface := fun q => ({ q with Status := { Allowed := true } }, none)

/-- An oracle that denies every query. -/
def oracleDeny : KubeInterface := fun q => ({ q with Status := { Allowed := false } }, none)

/-- An oracle whose call fails, whatever the returned review holds. -/
def oracleDown : KubeInterface :=
  fun q => ({ q with Status := { Allowed := true } }, some (GoError.other "connection refused"))

/-- A request with the given method and path, whose context carries the given client. -/
def sampleRequest (method path : String) (c : Option Client) : Request :=
  { Method := method
    URL := { Path := path, RawQuery := "", rendered := "https://kubernetes.default.svc" ++ path }
    ctx := { impersonateClient := c } }

/-- An inner transport that answers every request with status 200. -/
def innerOK : RoundTripper := fun _ => (some { StatusCode := 200, Body := "ok" }, none)

/-- The first alternation of the pattern: `(?:/api|/apis/(?P<GROUP>[^/]+))`. -/
def headAlt : Regexp :=
  .alternate (.literal ['/', 'a', 'p', 'i'])
    (.concat (.literal ['/', 'a', 'p', 'i', 's', '/']) (.capture 1 "GROUP" (.plusNotIn ['/'])))

/-- The group `(?P<VERSION>[^/]+)`. -/
def versionGroup : Regexp := .capture 2 "VERSION" (.plusNotIn ['/'])

/-- The literal `/namespaces/`. -/
def nsLit : List Char := ['/', 'n', 'a', 'm', 'e', 's', 'p', 'a', 'c', 'e', 's', '/']

/-- The optional part `(?:/namespaces/(?P<NAMESPACE>[^/]+))?`. -/
def nsQuest : Regexp :=
  .quest (.concat (.literal nsLit) (.capture 3 "NAMESPACE" (.plusNotIn ['/'])))

/-- The group `(?P<RESOURCETYPE>[^/\n]+)`. -/
def typeGroup : Regexp := .capture 4 "RESOURCETYPE" (.plusNotIn ['/', '\n'])

/-- The optional part `(?:/(?P<NAME>[^/\n]+))?`. -/
def nameQuest : Regexp :=
  .quest (.concat (.literal ['/']) (.capture 5 "NAME" (.plusNotIn ['/', '\n'])))

/-- The optional part `(?:/(?P<SUBRESOURCE>[^/\n]+))?`. -/
def subQuest : Regexp :=
  .quest (.concat (.literal ['/']) (.capture 6 "SUBRESOURCE" (.plusNotIn ['/', '\n'])))

/-- The pattern from the `/` in front of the resource type to `$`. -/
def resourceTail : Regexp :=
  .concat (.literal ['/']) (.concat typeGroup (.concat nameQuest (.concat subQuest .endText)))

/-- The reading the matcher prefers among those of the same path: a single trailing segment
is the name, not the subresource, and a path that can be read with a namespace is not read
with `namespaces` as the resource type. -/
def PathParse.Canonical (p : PathParse) : Prop :=
  (p.name = none → p.sub = none) ∧
  (p.ns = none → p.rtype = ['n', 'a', 'm', 'e', 's', 'p', 'a', 'c', 'e', 's'] → p.name ≠ none →
    p.sub = none)

/-- A path segment as the specification's grammar means it: non-empty, without `/` and without
a newline. -/
def plainSegment (s : String) : Prop := s ≠ "" ∧ '/' ∉ s.data ∧ '\n' ∉ s.data

instance (s : String) : Decidable (plainSegment s) := by
  unfold plainSegment; infer_instance

/-- The requests handed to the inner transport among the events of a call, in order. -/
def forwardedRequests : List Event → List Request
  | [] => []
  | .oracle _ :: rest => forwardedRequests rest
  | .forward r :: rest => r :: forwardedRequests rest

/-- The text in front of the version: `/api` for the core form, `/apis/<group>` otherwise. -/
def apiHead (group : String) : String := if group = "" then "/api" else "/apis/" ++ group

/-- Whether two `/` stand next to each other somewhere in the text. -/
def hasDoubleSlash : List Char → Bool
  | c :: d :: rest => (c == '/' && d == '/') || hasDoubleSlash (d :: rest)
  | _ => false

/-- A string ends with the character `/`. -/
def endsWithSlash (s : String) : Prop := s.data.getLast? = some '/'

instance (s : String) : Decidable (endsWithSlash s) := by
  unfold endsWithSlash; infer_instance

/-- Segments joined by `/`. -/
def joinSegs : List (List Char) → List Char
  | [] => []
  | [a] => a
  | a :: b :: rest => a ++ '/' :: joinSegs (b :: rest)

/-- The members of an optional group, as a list. -/
def optList : Option (List Char) → List (List Char)
  | none => []
  | some x => [x]

/-- Put a character in front of the first piece. -/
def consHead (c : Char) : List (List Char) → List (List Char)
  | [] => [[c]]
  | s :: ss => (c :: s) :: ss

/-- Go `strings.Split(path, "/")`: the pieces between the slashes; the empty text gives one
empty piece. -/
def splitSlash : List Char → List (List Char)
  | [] => [[]]
  | c :: cs => if c = '/' then [] :: splitSlash cs else consHead c (splitSlash cs)

/-- The grammar of accepted paths in the words of the specification: splitting on `/` gives an
empty first piece, then `api`, version or `apis`, group, version, then an optional pair
`namespaces`, namespace, then one, two or three further segments, every segment non-empty. -/
def specGrammar (path : String) : Prop :=
  ∃ lead nsPair more : List (List Char),
    splitSlash path.data = [] :: (lead ++ (nsPair ++ more)) ∧
    ((∃ v, lead = [['a', 'p', 'i'], v]) ∨ (∃ g v, lead = [['a', 'p', 'i', 's'], g, v])) ∧
    (nsPair = [] ∨ ∃ n, nsPair = [['n', 'a', 'm', 'e', 's', 'p', 'a', 'c', 'e', 's'], n]) ∧
    1 ≤ more.length ∧ more.length ≤ 3 ∧
    ∀ seg ∈ lead ++ (nsPair ++ more), seg ≠ []

/-- The leading segments: `api`, version or `apis`, group, version. -/
def leadSegs (g : Option (List Char)) (v : List Char) : List (List Char) :=
  match g with
  | none => [['a', 'p', 'i'], v]
  | some g => [['a', 'p', 'i', 's'], g, v]

/-- The optional pair `namespaces`, namespace. -/
def nsSegs : Option (List Char) → List (List Char)
  | none => []
  | some n => [['n', 'a', 'm', 'e', 's', 'p', 'a', 'c', 'e', 's'], n]

/-- The segments of a reading, in path order. -/
def PathParse.segs (p : PathParse) : List (List Char) :=
  leadSegs p.group p.version ++ (nsSegs p.ns ++ (p.rtype :: (optList p.name ++ optList p.sub)))

/-! ## The verb switch -/

theorem requestVerb_unmapped (req : Request) (h : req.Method ∉ mappedMethods) :
    requestVerb req = .error (GoError.status Code.Internal
      ("Could not calcluate kubernetes resource verb for " ++ req.Method ++ " on " ++
        req.URL.rendered)) := by
  simp only [mappedMethods, List.mem_cons, List.mem_singleton, List.not_mem_nil, not_or,
    or_false] at h
  obtain ⟨h1, h2, h3, h4, h5, h6⟩ := h
  simp [requestVerb, h1, h2, h3, h4, h5, h6]

theorem requestVerb_ok_iff (req : Request) :
    (∃ verb, requestVerb req = .ok verb) ↔ req.Method ∈ mappedMethods := by
  constructor
  · rintro ⟨verb, hv⟩
    by_contra hn
    rw [requestVerb_unmapped req hn] at hv
    cases hv
  · intro h
    simp only [mappedMethods, List.mem_cons, List.mem_singleton, List.not_mem_nil,
      or_false] at h
    rcases h with h | h | h | h | h | h <;> simp [requestVerb, h]

/-! ## The gate: `AccessReview` -/

theorem AccessReview_calls (s : client) (u ns verb g v t n sub : String) :
    (s.AccessReview u ns verb g v t n sub).calls = [reviewQuery u ns verb g v t n sub] := by
  unfold client.AccessReview
  simp only []
  split
  · rfl
  · split <;> rfl

theorem AccessReview_err_of_oracle_err (s : client) (u ns verb g v t n sub : String)
    (review : SubjectAccessReview) (e : GoError)
    (h : s.kubeClient (reviewQuery u ns verb g v t n sub) = (review, some e)) :
    (s.AccessReview u ns verb g v t n sub).err = some e := by
  unfold client.AccessReview
  simp only [h]

theorem AccessReview_err_of_denied (s : client) (u ns verb g v t n sub : String)
    (review : SubjectAccessReview)
    (h : s.kubeClient (reviewQuery u ns verb g v t n sub) = (review, none))
    (hd : review.Status.Allowed = false) :
    (s.AccessReview u ns verb g v t n sub).err = some (GoError.status Code.PermissionDenied
      ("user '" ++ u ++ "' is not allowed to '" ++ verb ++ "' " ++ resourceString g v t n sub ++
        " in namespace '" ++ ns ++ "'")) := by
  unfold client.AccessReview
  simp only [h, hd]
  rfl

theorem AccessReview_err_of_allowed (s : client) (u ns verb g v t n sub : String)
    (review : SubjectAccessReview)
    (h : s.kubeClient (reviewQuery u ns verb g v t n sub) = (review, none))
    (ha : review.Status.Allowed = true) :
    (s.AccessReview u ns verb g v t n sub).err = none := by
  unfold client.AccessReview
  simp only [h, ha]
  rfl

theorem AccessReview_err_none_iff (s : client) (u ns verb g v t n sub : String) :
    (s.AccessReview u ns verb g v t n sub).err = none ↔
      (s.kubeClient (reviewQuery u ns verb g v t n sub)).2 = none ∧
      (s.kubeClient (reviewQuery u ns verb g v t n sub)).1.Status.Allowed = true := by
  rcases hq : s.kubeClient (reviewQuery u ns verb g v t n sub) with ⟨review, _ | e⟩
  · cases ha : review.Status.Allowed
    · rw [AccessReview_err_of_denied s u ns verb g v t n sub review hq ha]; simp
    · rw [AccessReview_err_of_allowed s u ns verb g v t n sub review hq ha]; simp
  · rw [AccessReview_err_of_oracle_err s u ns verb g v t n sub review e hq]; simp

/-! ## `RoundTrip`, case by case -/

theorem RoundTrip_no_client (rt : impersonateRoundTripper) (req : Request)
    (h : GetImpersonateClient req.ctx = none) :
    rt.RoundTrip req = ⟨none, some (GoError.status Code.Internal
      "`impersonate.Client` is missing from HTTP context"), []⟩ := by
  unfold impersonateRoundTripper.RoundTrip
  simp only [h]

theorem RoundTrip_bad_path (rt : impersonateRoundTripper) (req : Request) (c : Client)
    (h : GetImpersonateClient req.ctx = some c) (hp : extractResource req.URL.Path = none) :
    rt.RoundTrip req = ⟨none, some (GoError.status Code.Internal
      ("Invalid Kubernetes Resource URI path: " ++ req.URL.Path)), []⟩ := by
  unfold impersonateRoundTripper.RoundTrip
  simp only [h, hp]

theorem RoundTrip_bad_verb (rt : impersonateRoundTripper) (req : Request) (c : Client)
    (d : ResourceDescriptor) (e : GoError)
    (h : GetImpersonateClient req.ctx = some c) (hp : extractResource req.URL.Path = some d)
    (hv : requestVerb req = .error e) :
    rt.RoundTrip req = ⟨none, some e, []⟩ := by
  unfold impersonateRoundTripper.RoundTrip
  simp only [h, hp, hv]

theorem RoundTrip_review_err (rt : impersonateRoundTripper) (req : Request) (c : Client)
    (d : ResourceDescriptor) (verb : String) (e : GoError)
    (h : GetImpersonateClient req.ctx = some c) (hp : extractResource req.URL.Path = some d)
    (hv : requestVerb req = .ok verb)
    (he : (c.AccessReview rt.username d.ns verb d.resourceGroup d.resourceVersion d.resourceType
      d.resourceName d.subresource).err = some e) :
    rt.RoundTrip req = ⟨none, some e,
      (c.AccessReview rt.username d.ns verb d.resourceGroup d.resourceVersion d.resourceType
        d.resourceName d.subresource).calls.map Event.oracle⟩ := by
  unfold impersonateRoundTripper.RoundTrip
  simp only [h, hp, hv, he]

theorem RoundTrip_review_ok (rt : impersonateRoundTripper) (req : Request) (c : Client)
    (d : ResourceDescriptor) (verb : String)
    (h : GetImpersonateClient req.ctx = some c) (hp : extractResource req.URL.Path = some d)
    (hv : requestVerb req = .ok verb)
    (he : (c.AccessReview rt.username d.ns verb d.resourceGroup d.resourceVersion d.resourceType
      d.resourceName d.subresource).err = none) :
    rt.RoundTrip req = ⟨(rt.rt req).1, (rt.rt req).2,
      (c.AccessReview rt.username d.ns verb d.resourceGroup d.resourceVersion d.resourceType
        d.resourceName d.subresource).calls.map Event.oracle ++ [Event.forward req]⟩ := by
  unfold impersonateRoundTripper.RoundTrip
  simp only [h, hp, hv, he]

theorem any_isForward_map_oracle (qs : List SubjectAccessReview) :
    (qs.map Event.oracle).any Event.isForward = false := by
  induction qs with
  | nil => rfl
  | cons q qs ih => simp [List.any_cons, Event.isForward, ih]

/-! ## The resource label -/

theorem TrimPrefix_slash_append (x : String) : TrimPrefix ("/" ++ x) "/" = x := by
  simp [TrimPrefix, dropLiteral]

theorem TrimPrefix_of_not_slash (s : String) (h : ¬ startsWithSlash s) : TrimPrefix s "/" = s := by
  rcases s with ⟨l⟩
  cases l with
  | nil => simp [TrimPrefix, dropLiteral]
  | cons c cs =>
    have hc : ¬ ('/' = c) := by
      intro hc
      apply h
      simp [startsWithSlash, hc.symm]
    show (match dropLiteral ['/'] (c :: cs) with
      | some rest => String.mk rest
      | none => String.mk (c :: cs)) = _
    simp [dropLiteral, hc]

theorem startsWithSlash_append (a b : String) (ha : a ≠ "") :
    startsWithSlash (a ++ b) ↔ startsWithSlash a := by
  rcases a with ⟨l⟩
  cases l with
  | nil => exact absurd rfl ha
  | cons c cs => simp [startsWithSlash]

theorem startsWithSlash_empty : ¬ startsWithSlash "" := by
  simp [startsWithSlash]

theorem resourceString_eq_join (g v t n s : String) (hg : ¬ startsWithSlash g) :
    resourceString g v t n s = joinNonEmpty [g, v, t, n, s] := by
  have key : ∀ x : String, g ≠ "" → TrimPrefix (g ++ x) "/" = g ++ x := fun x hne =>
    TrimPrefix_of_not_slash _ (fun h => hg ((startsWithSlash_append g x hne).1 h))
  unfold resourceString joinNonEmpty
  by_cases h1 : g = "" <;> by_cases h2 : v = "" <;> by_cases h3 : t = "" <;>
    by_cases h4 : n = "" <;> by_cases h5 : s = "" <;>
    simp [h1, h2, h3, h4, h5, String.intercalate, String.intercalate.go, String.append_assoc,
      TrimPrefix_slash_append, key, TrimPrefix_of_not_slash _ hg, startsWithSlash_empty,
      TrimPrefix_of_not_slash _ startsWithSlash_empty]

/-! ## Soundness of the matcher -/

theorem dropLiteral_eq_some (l inp rest : List Char) :
    dropLiteral l inp = some rest ↔ inp = l ++ rest := by
  induction l generalizing inp with
  | nil => simp [dropLiteral, eq_comm]
  | cons c cs ih =>
    cases inp with
    | nil => simp [dropLiteral]
    | cons d ds =>
      by_cases h : c = d
      · simp [dropLiteral, h, ih]
      · simp [dropLiteral, h]
        intro hd
        exact absurd hd.symm h

theorem plusLoop_sound (ex : List Char) (k : List Char → Option Caps) (inp : List Char)
    (res : Caps) (h : plusLoop ex k inp = some res) :
    ∃ seg out, (∀ x ∈ seg, x ∉ ex) ∧ inp = seg ++ out ∧ k out = some res := by
  induction inp with
  | nil => exact ⟨[], [], by simp, rfl, h⟩
  | cons c cs ih =>
    unfold plusLoop at h
    by_cases hc : c ∈ ex
    · rw [if_pos hc] at h
      exact ⟨[], c :: cs, by simp, rfl, h⟩
    · rw [if_neg hc] at h
      cases hl : plusLoop ex k cs with
      | some r =>
        rw [hl] at h
        have hr : r = res := by simpa using h
        subst hr
        obtain ⟨seg, out, hseg, hcs, hk⟩ := ih hl
        refine ⟨c :: seg, out, ?_, by simp [hcs], hk⟩
        intro x hx
        rcases List.mem_cons.1 hx with rfl | hx
        · exact hc
        · exact hseg x hx
      | none =>
        rw [hl] at h
        exact ⟨[], c :: cs, by simp, rfl, h⟩

theorem plusNotInRun_sound (ex : List Char) (k : List Char → Option Caps) (inp : List Char)
    (res : Caps) (h : plusNotInRun ex k inp = some res) :
    ∃ seg out, seg ≠ [] ∧ (∀ x ∈ seg, x ∉ ex) ∧ inp = seg ++ out ∧ k out = some res := by
  cases inp with
  | nil => simp [plusNotInRun] at h
  | cons c cs =>
    simp only [plusNotInRun] at h
    by_cases hc : c ∈ ex
    · simp [hc] at h
    · rw [if_neg hc] at h
      obtain ⟨seg, out, hseg, hcs, hk⟩ := plusLoop_sound ex k cs res h
      refine ⟨c :: seg, out, by simp, ?_, by simp [hcs], hk⟩
      intro x hx
      rcases List.mem_cons.1 hx with rfl | hx
      · exact hc
      · exact hseg x hx

theorem Sem_suffix (text : List Char) (r : Regexp) :
    ∀ inp c out c1, r.Sem text inp c out c1 → ∃ seg, inp = seg ++ out := by
  induction r with
  | literal l => intro inp c out c1 h; exact ⟨l, h.1⟩
  | plusNotIn ex =>
    intro inp c out c1 h
    obtain ⟨seg, _, _, hs, _⟩ := h
    exact ⟨seg, hs⟩
  | capture i name r _ =>
    intro inp c out c1 h
    obtain ⟨c0, seg, _, hs, _⟩ := h
    exact ⟨seg, hs⟩
  | concat a b iha ihb =>
    intro inp c out c1 h
    obtain ⟨mid, cm, ha, hb⟩ := h
    obtain ⟨s1, h1⟩ := iha _ _ _ _ ha
    obtain ⟨s2, h2⟩ := ihb _ _ _ _ hb
    exact ⟨s1 ++ s2, by simp [h1, h2]⟩
  | alternate a b iha ihb =>
    intro inp c out c1 h
    rcases h with h | h
    · exact iha _ _ _ _ h
    · exact ihb _ _ _ _ h
  | quest r ih =>
    intro inp c out c1 h
    rcases h with h | h
    · exact ih _ _ _ _ h
    · exact ⟨[], by simp [h.1]⟩
  | beginText => intro inp c out c1 h; exact ⟨[], by simp [h.2.1]⟩
  | endText => intro inp c out c1 h; exact ⟨[], by simp [h.1, h.2.1]⟩

theorem run_sound (text : List Char) (r : Regexp) :
    ∀ inp caps k res, r.run text inp caps k = some res →
      ∃ out c1, r.Sem text inp caps out c1 ∧ k out c1 = some res := by
  induction r with
  | literal l =>
    intro inp caps k res h
    simp only [Regexp.run] at h
    cases hd : dropLiteral l inp with
    | none => simp [hd] at h
    | some rest =>
      simp only [hd] at h
      exact ⟨rest, caps, ⟨(dropLiteral_eq_some l inp rest).1 hd, rfl⟩, h⟩
  | plusNotIn ex =>
    intro inp caps k res h
    simp only [Regexp.run] at h
    obtain ⟨seg, out, hne, hseg, hinp, hk⟩ := plusNotInRun_sound ex _ inp res h
    exact ⟨out, caps, ⟨seg, hne, hseg, hinp, rfl⟩, hk⟩
  | capture i name r ih =>
    intro inp caps k res h
    simp only [Regexp.run] at h
    obtain ⟨out, c0, hsem, hk⟩ := ih _ _ _ _ h
    obtain ⟨seg, hseg⟩ := Sem_suffix text r _ _ _ _ hsem
    refine ⟨out, (i, seg) :: c0, ⟨c0, seg, hsem, hseg, rfl⟩, ?_⟩
    have ht : inp.take (inp.length - out.length) = seg := by
      subst hseg
      simp
    simpa [ht] using hk
  | concat a b iha ihb =>
    intro inp caps k res h
    simp only [Regexp.run] at h
    obtain ⟨mid, cm, ha, hk⟩ := iha _ _ _ _ h
    obtain ⟨out, c1, hb, hk2⟩ := ihb _ _ _ _ hk
    exact ⟨out, c1, ⟨mid, cm, ha, hb⟩, hk2⟩
  | alternate a b iha ihb =>
    intro inp caps k res h
    simp only [Regexp.run] at h
    cases ha : a.run text inp caps k with
    | some r =>
      rw [ha] at h
      obtain ⟨out, c1, hs, hk⟩ := iha _ _ _ _ ha
      exact ⟨out, c1, Or.inl hs, by simpa using h ▸ hk⟩
    | none =>
      rw [ha] at h
      obtain ⟨out, c1, hs, hk⟩ := ihb _ _ _ _ h
      exact ⟨out, c1, Or.inr hs, hk⟩
  | quest r ih =>
    intro inp caps k res h
    simp only [Regexp.run] at h
    cases ha : r.run text inp caps k with
    | some r0 =>
      rw [ha] at h
      obtain ⟨out, c1, hs, hk⟩ := ih _ _ _ _ ha
      exact ⟨out, c1, Or.inl hs, by simpa using h ▸ hk⟩
    | none =>
      rw [ha] at h
      exact ⟨inp, caps, Or.inr ⟨rfl, rfl⟩, h⟩
  | beginText =>
    intro inp caps k res h
    simp only [Regexp.run] at h
    by_cases hl : inp.length = text.length
    · rw [if_pos hl] at h
      exact ⟨inp, caps, ⟨hl, rfl, rfl⟩, h⟩
    · rw [if_neg hl] at h
      cases h
  | endText =>
    intro inp caps k res h
    cases inp with
    | nil =>
      simp only [Regexp.run] at h
      exact ⟨[], caps, ⟨rfl, rfl, rfl⟩, h⟩
    | cons c cs => simp [Regexp.run] at h

/-! ## The shape of an accepted path -/

theorem Sem_capture_plus (text : List Char) (i : Nat) (nm : String) (ex inp : List Char)
    (c : Caps) (out : List Char) (c1 : Caps)
    (h : (Regexp.capture i nm (.plusNotIn ex)).Sem text inp c out c1) :
    ∃ seg, segment ex seg ∧ inp = seg ++ out ∧ c1 = (i, seg) :: c := by
  obtain ⟨c0, seg, ⟨seg0, hne, hall, hinp, hc0⟩, hseg, hc1⟩ := h
  have : seg = seg0 := by
    rw [hinp] at hseg
    exact (List.append_cancel_right hseg).symm
  subst this
  subst hc0
  exact ⟨seg, ⟨hne, hall⟩, hinp, hc1⟩

theorem Sem_quest_part (text : List Char) (lit : List Char) (i : Nat) (nm : String)
    (ex inp : List Char) (c : Caps) (out : List Char) (c1 : Caps)
    (h : (Regexp.quest (.concat (.literal lit) (.capture i nm (.plusNotIn ex)))).Sem
      text inp c out c1) :
    ∃ o : Option (List Char), (∀ x, o = some x → segment ex x) ∧
      inp = optPart lit o ++ out ∧ c1 = optCap i o ++ c := by
  rcases h with ⟨mid, cm, ⟨hlit, hcm⟩, hcap⟩ | ⟨hout, hc⟩
  · obtain ⟨seg, hseg, hmid, hc1⟩ := Sem_capture_plus text i nm ex mid cm out c1 hcap
    refine ⟨some seg, ?_, ?_, ?_⟩
    · intro x hx
      cases hx
      exact hseg
    · simp [optPart, hlit, hmid]
    · simp [optCap, hc1, hcm]
  · exact ⟨none, by simp, by simp [optPart, hout], by simp [optCap, hc]⟩

theorem pathPattern_sound (text : List Char) (caps : Caps)
    (h : pathPattern.matchAt text text = some caps) :
    ∃ p : PathParse, p.Valid ∧ text = p.render ∧ caps = p.caps := by
  obtain ⟨out, c1, hsem, hk⟩ := run_sound text _ _ _ _ _ h
  have hc : c1 = caps := by simpa using hk
  subst hc
  obtain ⟨c0, whole, hsem, hwhole, hcaps⟩ := hsem
  obtain ⟨i1, k1, hbegin, hsem⟩ := hsem
  obtain ⟨hlen, hi1, hk1⟩ := hbegin
  rw [hi1, hk1] at hsem
  clear hi1 hk1 i1 k1
  obtain ⟨i2, k2, hhead, hsem⟩ := hsem
  obtain ⟨i3, k3, ⟨hslash1, hk3⟩, hsem⟩ := hsem
  obtain ⟨i4, k4, hver, hsem⟩ := hsem
  obtain ⟨i5, k5, hns, hsem⟩ := hsem
  obtain ⟨i6, k6, ⟨hslash2, hk6⟩, hsem⟩ := hsem
  obtain ⟨i7, k7, htype, hsem⟩ := hsem
  obtain ⟨i8, k8, hname, hsem⟩ := hsem
  obtain ⟨i9, k9, hsub, ⟨hend, hout, hk9⟩⟩ := hsem
  obtain ⟨v, hv, hvi, hvk⟩ := Sem_capture_plus _ _ _ _ _ _ _ _ hver
  obtain ⟨n, hn, hni, hnk⟩ := Sem_quest_part _ _ _ _ _ _ _ _ _ hns
  obtain ⟨t, ht, hti, htk⟩ := Sem_capture_plus _ _ _ _ _ _ _ _ htype
  obtain ⟨m, hm, hmi, hmk⟩ := Sem_quest_part _ _ _ _ _ _ _ _ _ hname
  obtain ⟨s, hs, hsi, hsk⟩ := Sem_quest_part _ _ _ _ _ _ _ _ _ hsub
  have hg : ∃ g : Option (List Char), (∀ x, g = some x → segment ['/'] x) ∧
      text = headPart g ++ i2 ∧ k2 = optCap 1 g ++ [] := by
    rcases hhead with ⟨hl, hc⟩ | ⟨mid, cm, ⟨hl, hcm⟩, hcap⟩
    · exact ⟨none, by simp, by simp [headPart, hl], by simp [optCap, hc]⟩
    · obtain ⟨g, hg, hmid, hc1⟩ := Sem_capture_plus _ _ _ _ _ _ _ _ hcap
      refine ⟨some g, ?_, by simp [headPart, hl, hmid], by simp [optCap, hc1, hcm]⟩
      intro x hx
      cases hx
      exact hg
  obtain ⟨g, hg, hgi, hgk⟩ := hg
  refine ⟨⟨g, v, n, t, m, s⟩, ⟨hg, hv, hn, ht, hm, hs⟩, ?_, ?_⟩
  · subst hend hout
    simp [PathParse.render, hgi, hslash1, hvi, hni, hslash2, hti, hmi, hsi]
  · subst hend hout
    have hw : whole = text := by simpa using hwhole.symm
    simp [PathParse.caps, PathParse.render, hcaps, hw, hk9, hsk, hmk, htk, hk6, hnk, hvk, hk3,
      hgk, hgi, hslash1, hvi, hni, hslash2, hti, hmi, hsi]

theorem pathPattern_matchAt_off (text inp : List Char) (h : inp.length ≠ text.length) :
    pathPattern.matchAt text inp = none := by
  simp [Regexp.matchAt, pathPattern, Regexp.run, h]

theorem pathPattern_searchFrom_short (text : List Char) :
    ∀ inp : List Char, inp.length < text.length → pathPattern.searchFrom text inp = none := by
  intro inp
  induction inp with
  | nil =>
    intro h
    simp only [Regexp.searchFrom]
    exact pathPattern_matchAt_off text [] (Nat.ne_of_lt h)
  | cons c cs ih =>
    intro h
    simp only [Regexp.searchFrom]
    rw [pathPattern_matchAt_off text (c :: cs) (Nat.ne_of_lt h)]
    exact ih (Nat.lt_of_succ_lt h)

theorem pathPattern_search (text : List Char) :
    pathPattern.searchFrom text text = pathPattern.matchAt text text := by
  cases text with
  | nil => rfl
  | cons c cs =>
    simp only [Regexp.searchFrom]
    cases pathPattern.matchAt (c :: cs) (c :: cs) with
    | some caps => rfl
    | none => exact pathPattern_searchFrom_short (c :: cs) cs (Nat.lt_succ_self _)

theorem extractResource_eq (path : String) :
    extractResource path = (pathPattern.matchAt path.data path.data).map (fun caps =>
      { ns := groupText caps 3
        resourceGroup := groupText caps 1
        resourceVersion := groupText caps 2
        resourceType := groupText caps 4
        resourceName := groupText caps 5
        subresource := groupText caps 5 }) := by
  have h3 : pathPattern.SubexpIndex "NAMESPACE" = 3 := by decide
  have h1 : pathPattern.SubexpIndex "GROUP" = 1 := by decide
  have h2 : pathPattern.SubexpIndex "VERSION" = 2 := by decide
  have h4 : pathPattern.SubexpIndex "RESOURCETYPE" = 4 := by decide
  have h5 : pathPattern.SubexpIndex "NAME" = 5 := by decide
  have hn : pathPattern.NumSubexp + 1 = 7 := by decide
  have hr : List.range 7 = [0, 1, 2, 3, 4, 5, 6] := by decide
  unfold extractResource Regexp.FindStringSubmatch
  simp only [pathPattern_search, h1, h2, h3, h4, h5, hn, hr]
  cases pathPattern.matchAt path.data path.data with
  | none => rfl
  | some caps => simp [submatch]

theorem groupText_caps (p : PathParse) :
    groupText p.caps 3 = optText p.ns ∧ groupText p.caps 1 = optText p.group ∧
    groupText p.caps 2 = String.mk p.version ∧ groupText p.caps 4 = String.mk p.rtype ∧
    groupText p.caps 5 = optText p.name := by
  rcases p with ⟨g, v, n, t, m, s⟩
  cases g <;> cases n <;> cases m <;> cases s <;>
    simp [PathParse.caps, optCap, groupText, List.lookup, optText]

theorem extractResource_sound (path : String) (d : ResourceDescriptor)
    (h : extractResource path = some d) :
    ∃ p : PathParse, p.Valid ∧ path.data = p.render ∧ d = p.descriptor := by
  rw [extractResource_eq] at h
  cases hm : pathPattern.matchAt path.data path.data with
  | none => simp [hm] at h
  | some caps =>
    obtain ⟨p, hv, ht, hc⟩ := pathPattern_sound _ _ hm
    refine ⟨p, hv, ht, ?_⟩
    obtain ⟨e3, e1, e2, e4, e5⟩ := groupText_caps p
    simp only [hm, Option.map_some', Option.some.injEq] at h
    rw [← h, hc, e1, e2, e3, e4, e5]
    rfl

theorem render_prefix (p : PathParse) :
    ['/', 'a', 'p', 'i', '/'] <+: p.render ∨ ['/', 'a', 'p', 'i', 's', '/'] <+: p.render := by
  rcases p with ⟨g, v, n, t, m, s⟩
  cases g with
  | none =>
    left
    exact ⟨_, by simp [PathParse.render, headPart]; rfl⟩
  | some g =>
    right
    exact ⟨_, by simp [PathParse.render, headPart]; rfl⟩

theorem extractResource_none_of_no_api (path : String) (h1 : ¬ HasPrefix path "/api/")
    (h2 : ¬ HasPrefix path "/apis/") : extractResource path = none := by
  cases h : extractResource path with
  | none => rfl
  | some d =>
    obtain ⟨p, _, ht, _⟩ := extractResource_sound path d h
    rcases render_prefix p with hp | hp
    · exact absurd (by rw [HasPrefix, ht]; exact hp) h1
    · exact absurd (by rw [HasPrefix, ht]; exact hp) h2

theorem render_count_core (v : List Char) (n : Option (List Char)) (t : List Char)
    (m s : Option (List Char)) :
    3 ≤ List.count '/' (PathParse.render ⟨none, v, n, t, m, s⟩) := by
  simp only [PathParse.render, headPart, List.count_append, List.count_cons, List.count_nil]
  simp
  omega

theorem render_count_grouped (g v : List Char) (n : Option (List Char)) (t : List Char)
    (m s : Option (List Char)) :
    4 ≤ List.count '/' (PathParse.render ⟨some g, v, n, t, m, s⟩) := by
  simp only [PathParse.render, headPart, List.count_append, List.count_cons, List.count_nil]
  simp
  omega

theorem extractResource_bare_core (v : String) (hv : '/' ∉ v.data) :
    extractResource ("/api/" ++ v) = none := by
  cases h : extractResource ("/api/" ++ v) with
  | none => rfl
  | some d =>
    obtain ⟨p, _, ht, _⟩ := extractResource_sound _ d h
    rcases p with ⟨g, v1, n, t, m, s⟩
    have hc : List.count '/' ("/api/" ++ v).data = 2 := by
      simp [String.data_append, List.count_append, List.count_cons, List.count_eq_zero.2 hv]
    cases g with
    | none =>
      have := render_count_core v1 n t m s
      rw [← ht, hc] at this
      omega
    | some g =>
      have := render_count_grouped g v1 n t m s
      rw [← ht, hc] at this
      omega

theorem extractResource_bare_grouped (g v : String) (hg : '/' ∉ g.data) (hv : '/' ∉ v.data) :
    extractResource ("/apis/" ++ g ++ "/" ++ v) = none := by
  cases h : extractResource ("/apis/" ++ g ++ "/" ++ v) with
  | none => rfl
  | some d =>
    obtain ⟨p, _, ht, _⟩ := extractResource_sound _ d h
    rcases p with ⟨g1, v1, n, t, m, s⟩
    have hc : List.count '/' ("/apis/" ++ g ++ "/" ++ v).data = 3 := by
      simp [String.data_append, List.count_append, List.count_cons, List.count_eq_zero.2 hv,
        List.count_eq_zero.2 hg]
    cases g1 with
    | none =>
      simp [PathParse.render, headPart, String.data_append] at ht
    | some g1 =>
      have := render_count_grouped g1 v1 n t m s
      rw [← ht, hc] at this
      omega

theorem extractResource_nonempty (path : String) (d : ResourceDescriptor)
    (h : extractResource path = some d) : d.resourceVersion ≠ "" ∧ d.resourceType ≠ "" := by
  obtain ⟨p, hv, _, hd⟩ := extractResource_sound path d h
  obtain ⟨_, hver, _, htype, _, _⟩ := hv
  subst hd
  constructor
  · intro he
    exact hver.1 (by simpa [PathParse.descriptor] using congrArg String.data he)
  · intro he
    exact htype.1 (by simpa [PathParse.descriptor] using congrArg String.data he)

/-! ## Completeness of the matcher and the preferred reading -/

theorem pathPattern_eq :
    pathPattern = .concat .beginText (.concat headAlt (.concat (.literal ['/'])
      (.concat versionGroup (.concat nsQuest resourceTail)))) := rfl

theorem split_at_slash (a b r1 r2 : List Char) (ha : '/' ∉ a) (hb : '/' ∉ b)
    (h : a ++ '/' :: r1 = b ++ '/' :: r2) : a = b ∧ r1 = r2 := by
  induction a generalizing b with
  | nil =>
    cases b with
    | nil => simpa using h
    | cons y ys =>
      simp at h
      exact absurd (h.1 ▸ List.mem_cons_self _ _) hb
  | cons x xs ih =>
    cases b with
    | nil =>
      simp at h
      exact absurd (h.1 ▸ List.mem_cons_self _ _) ha
    | cons y ys =>
      simp only [List.cons_append, List.cons.injEq] at h
      obtain ⟨hxy, hrest⟩ := h
      have := ih ys (fun hm => ha (List.mem_cons_of_mem _ hm))
        (fun hm => hb (List.mem_cons_of_mem _ hm)) hrest
      exact ⟨by rw [hxy, this.1], this.2⟩

theorem segment_no_slash (ex seg : List Char) (hex : '/' ∈ ex) (h : segment ex seg) : '/' ∉ seg :=
  fun hm => h.2 '/' hm hex

theorem run_literal (text l rest : List Char) (caps : Caps)
    (k : List Char → Caps → Option Caps) :
    (Regexp.literal l).run text (l ++ rest) caps k = k rest caps := by
  have : dropLiteral l (l ++ rest) = some rest := (dropLiteral_eq_some l _ rest).2 rfl
  simp [Regexp.run, this]

theorem plusLoop_first (ex : List Char) (k : List Char → Option Caps) (seg rest : List Char)
    (r : Caps) (hseg : ∀ x ∈ seg, x ∉ ex) (hstop : ∀ c, rest.head? = some c → c ∈ ex)
    (hk : k rest = some r) : plusLoop ex k (seg ++ rest) = some r := by
  induction seg with
  | nil =>
    cases rest with
    | nil => simpa [plusLoop] using hk
    | cons c cs =>
      have hc : c ∈ ex := hstop c rfl
      simp [plusLoop, hc, hk]
  | cons c cs ih =>
    have hc : c ∉ ex := hseg c (List.mem_cons_self _ _)
    have := ih (fun x hx => hseg x (List.mem_cons_of_mem _ hx))
    simp [plusLoop, hc, this]

theorem run_capture_plus_first (text : List Char) (i : Nat) (nm : String)
    (ex seg rest : List Char) (caps : Caps) (k : List Char → Caps → Option Caps) (r : Caps)
    (hs : segment ex seg) (hstop : ∀ c, rest.head? = some c → c ∈ ex)
    (hk : k rest ((i, seg) :: caps) = some r) :
    (Regexp.capture i nm (.plusNotIn ex)).run text (seg ++ rest) caps k = some r := by
  obtain ⟨hne, hall⟩ := hs
  cases seg with
  | nil => exact absurd rfl hne
  | cons c cs =>
    have hc : c ∉ ex := hall c (List.mem_cons_self _ _)
    simp only [Regexp.run, List.cons_append, plusNotInRun, if_neg hc]
    apply plusLoop_first ex _ cs rest r (fun x hx => hall x (List.mem_cons_of_mem _ hx)) hstop
    have : (c :: (cs ++ rest)).take ((c :: (cs ++ rest)).length - rest.length) = c :: cs := by
      have hl : (c :: (cs ++ rest)).length - rest.length = (c :: cs).length := by
        simp
        omega
      rw [hl, ← List.cons_append, List.take_left']
      rfl
    simp only [this]
    exact hk

theorem run_quest_part_some (text lit : List Char) (i : Nat) (nm : String)
    (ex x rest : List Char) (caps : Caps) (k : List Char → Caps → Option Caps) (r : Caps)
    (hx : segment ex x) (hstop : ∀ c, rest.head? = some c → c ∈ ex)
    (hk : k rest ((i, x) :: caps) = some r) :
    (Regexp.quest (.concat (.literal lit) (.capture i nm (.plusNotIn ex)))).run text
      (lit ++ (x ++ rest)) caps k = some r := by
  have h1 : (Regexp.concat (.literal lit) (.capture i nm (.plusNotIn ex))).run text
      (lit ++ (x ++ rest)) caps k = some r := by
    simp only [Regexp.run.eq_4]
    rw [run_literal]
    exact run_capture_plus_first text i nm ex x rest caps k r hx hstop hk
  simp only [Regexp.run.eq_6, h1]

theorem run_quest_part_nil (text : List Char) (c : Char) (lit : List Char) (i : Nat)
    (nm : String) (ex : List Char) (caps : Caps) (k : List Char → Caps → Option Caps) :
    (Regexp.quest (.concat (.literal (c :: lit)) (.capture i nm (.plusNotIn ex)))).run text
      [] caps k = k [] caps := by
  simp [Regexp.run, dropLiteral]

theorem optPart_head (c : Char) (lit : List Char) (o : Option (List Char)) (rest : List Char)
    (ex : List Char) (hc : c ∈ ex) (hrest : ∀ d, rest.head? = some d → d ∈ ex) :
    ∀ d, (optPart (c :: lit) o ++ rest).head? = some d → d ∈ ex := by
  intro d hd
  cases o with
  | none => exact hrest d (by simpa [optPart] using hd)
  | some x =>
    simp [optPart] at hd
    exact hd ▸ hc

theorem run_subQuest (text : List Char) (sub : Option (List Char)) (caps : Caps)
    (k : List Char → Caps → Option Caps) (r : Caps)
    (hs : ∀ x, sub = some x → segment ['/', '\n'] x)
    (hk : k [] (optCap 6 sub ++ caps) = some r) :
    subQuest.run text (optPart ['/'] sub) caps k = some r := by
  cases sub with
  | none =>
    rw [subQuest, optPart, run_quest_part_nil]
    simpa [optCap] using hk
  | some s =>
    have := run_quest_part_some text ['/'] 6 "SUBRESOURCE" ['/', '\n'] s [] caps k r
      (hs s rfl) (by simp) (by simpa [optCap] using hk)
    simpa [subQuest, optPart] using this

theorem run_nameQuest (text : List Char) (name sub : Option (List Char)) (caps : Caps)
    (k : List Char → Caps → Option Caps) (r : Caps)
    (hm : ∀ x, name = some x → segment ['/', '\n'] x)
    (hs : ∀ x, sub = some x → segment ['/', '\n'] x) (hc : name = none → sub = none)
    (hk : k [] (optCap 6 sub ++ (optCap 5 name ++ caps)) = some r) :
    nameQuest.run text (optPart ['/'] name ++ optPart ['/'] sub) caps
      (fun rest c => subQuest.run text rest c k) = some r := by
  cases name with
  | none =>
    have hsub := hc rfl
    subst hsub
    rw [nameQuest]
    simp only [optPart, List.append_nil]
    rw [run_quest_part_nil]
    exact run_subQuest text none caps k r hs hk
  | some m =>
    have := run_quest_part_some text ['/'] 5 "NAME" ['/', '\n'] m (optPart ['/'] sub) caps
      (fun rest c => subQuest.run text rest c k) r (hm m rfl)
      (by
        have := optPart_head '/' [] sub [] ['/', '\n'] (by simp) (by simp)
        simpa using this)
      (run_subQuest text sub _ k r hs (by simpa [optCap] using hk))
    simpa [nameQuest, optPart] using this

theorem run_resourceTail (text t : List Char) (name sub : Option (List Char)) (caps : Caps)
    (k : List Char → Caps → Option Caps) (r : Caps) (ht : segment ['/', '\n'] t)
    (hm : ∀ x, name = some x → segment ['/', '\n'] x)
    (hs : ∀ x, sub = some x → segment ['/', '\n'] x) (hc : name = none → sub = none)
    (hk : k [] (optCap 6 sub ++ (optCap 5 name ++ ((4, t) :: caps))) = some r) :
    resourceTail.run text ('/' :: t ++ (optPart ['/'] name ++ optPart ['/'] sub)) caps k =
      some r := by
  have hstop : ∀ d, (optPart ['/'] name ++ optPart ['/'] sub).head? = some d →
      d ∈ ['/', '\n'] :=
    optPart_head '/' [] name _ ['/', '\n'] (by simp)
      (by
        have := optPart_head '/' [] sub [] ['/', '\n'] (by simp) (by simp)
        simpa using this)
  have h1 := run_capture_plus_first text 4 "RESOURCETYPE" ['/', '\n'] t
    (optPart ['/'] name ++ optPart ['/'] sub) caps
    (fun rest c => nameQuest.run text rest c
      (fun rest c => (Regexp.concat subQuest .endText).run text rest c k)) r ht hstop
    (by
      have hk2 : (fun rest c => Regexp.endText.run text rest c k) []
          (optCap 6 sub ++ (optCap 5 name ++ ((4, t) :: caps))) = some r := by
        simpa [Regexp.run] using hk
      have := run_nameQuest text name sub ((4, t) :: caps)
        (fun rest c => Regexp.endText.run text rest c k) r hm hs hc hk2
      simpa [Regexp.run.eq_4] using this)
  have h2 : resourceTail.run text (['/'] ++ (t ++ (optPart ['/'] name ++ optPart ['/'] sub)))
      caps k = some r := by
    rw [resourceTail]
    simp only [Regexp.run.eq_4]
    rw [run_literal]
    simpa [typeGroup, Regexp.run.eq_4] using h1
  simpa using h2

theorem resourceTail_needs_slash (text out : List Char) (caps : Caps)
    (k : List Char → Caps → Option Caps) (res : Caps)
    (h : resourceTail.run text out caps k = some res) : ∃ out1, out = '/' :: out1 := by
  rw [resourceTail] at h
  simp only [Regexp.run.eq_4, Regexp.run.eq_1] at h
  cases hd : dropLiteral ['/'] out with
  | none => simp [hd] at h
  | some out1 => exact ⟨out1, by simpa using (dropLiteral_eq_some _ _ _).1 hd⟩

theorem nsBody_fails (text t : List Char) (name sub : Option (List Char)) (caps : Caps)
    (k : List Char → Caps → Option Caps) (ht : segment ['/', '\n'] t)
    (hm : ∀ x, name = some x → segment ['/', '\n'] x)
    (hc : name = none → sub = none)
    (hcan : t = ['n', 'a', 'm', 'e', 's', 'p', 'a', 'c', 'e', 's'] → name ≠ none → sub = none) :
    (Regexp.concat (.literal nsLit) (.capture 3 "NAMESPACE" (.plusNotIn ['/']))).run text
      ('/' :: (t ++ (optPart ['/'] name ++ optPart ['/'] sub))) caps
      (fun rest c => resourceTail.run text rest c k) = none := by
  cases h : (Regexp.concat (.literal nsLit) (.capture 3 "NAMESPACE" (.plusNotIn ['/']))).run text
      ('/' :: (t ++ (optPart ['/'] name ++ optPart ['/'] sub))) caps
      (fun rest c => resourceTail.run text rest c k) with
  | none => rfl
  | some res =>
    exfalso
    simp only [Regexp.run.eq_4, Regexp.run.eq_1] at h
    cases hd : dropLiteral nsLit ('/' :: (t ++ (optPart ['/'] name ++ optPart ['/'] sub))) with
    | none => simp [hd] at h
    | some rest1 =>
      simp only [hd, Regexp.run.eq_3, Regexp.run.eq_2] at h
      obtain ⟨seg, out, hne, hseg, hrest, hk⟩ := plusNotInRun_sound _ _ _ _ h
      obtain ⟨out1, hout⟩ := resourceTail_needs_slash _ _ _ _ _ hk
      have hinp := (dropLiteral_eq_some _ _ _).1 hd
      rw [hrest, hout] at hinp
      have htn : '/' ∉ t := segment_no_slash _ _ (by simp) ht
      simp only [nsLit, List.cons_append, List.cons.injEq, true_and, List.nil_append] at hinp
      cases name with
      | none =>
        have hsub := hc rfl
        subst hsub
        simp only [optPart, List.append_nil] at hinp
        apply htn
        rw [hinp]
        simp
      | some m =>
        have hmn : '/' ∉ m := segment_no_slash _ _ (by simp) (hm m rfl)
        have hsp := split_at_slash t ['n', 'a', 'm', 'e', 's', 'p', 'a', 'c', 'e', 's']
          (m ++ optPart ['/'] sub) (seg ++ '/' :: out1) htn (by decide)
          (by simpa [optPart] using hinp)
        have hsub := hcan hsp.1 (by simp)
        subst hsub
        apply hmn
        have h2 := hsp.2
        simp only [optPart, List.append_nil] at h2
        rw [h2]
        simp

theorem run_nsQuest (text : List Char) (ns : Option (List Char)) (t : List Char)
    (name sub : Option (List Char)) (caps : Caps) (k : List Char → Caps → Option Caps)
    (r : Caps) (hn : ∀ x, ns = some x → segment ['/'] x) (ht : segment ['/', '\n'] t)
    (hm : ∀ x, name = some x → segment ['/', '\n'] x)
    (hs : ∀ x, sub = some x → segment ['/', '\n'] x) (hc : name = none → sub = none)
    (hcan : ns = none → t = ['n', 'a', 'm', 'e', 's', 'p', 'a', 'c', 'e', 's'] → name ≠ none →
      sub = none)
    (hk : k [] (optCap 6 sub ++ (optCap 5 name ++ ((4, t) :: (optCap 3 ns ++ caps)))) =
      some r) :
    nsQuest.run text
      (optPart nsLit ns ++ ('/' :: (t ++ (optPart ['/'] name ++ optPart ['/'] sub)))) caps
      (fun rest c => resourceTail.run text rest c k) = some r := by
  cases ns with
  | none =>
    rw [nsQuest, show optPart nsLit none = [] from rfl, List.nil_append]
    simp only [Regexp.run.eq_6]
    rw [nsBody_fails text t name sub caps k ht hm hc (hcan rfl)]
    exact run_resourceTail text t name sub caps k r ht hm hs hc (by simpa [optCap] using hk)
  | some n =>
    have := run_quest_part_some text nsLit 3 "NAMESPACE" ['/'] n
      ('/' :: (t ++ (optPart ['/'] name ++ optPart ['/'] sub))) caps
      (fun rest c => resourceTail.run text rest c k) r (hn n rfl) (by simp)
      (run_resourceTail text t name sub _ k r ht hm hs hc (by simpa [optCap] using hk))
    simpa [nsQuest, optPart] using this

theorem run_versionGroup (text v : List Char) (ns : Option (List Char)) (t : List Char)
    (name sub : Option (List Char)) (caps : Caps) (k : List Char → Caps → Option Caps)
    (r : Caps) (hv : segment ['/'] v) (hn : ∀ x, ns = some x → segment ['/'] x)
    (ht : segment ['/', '\n'] t) (hm : ∀ x, name = some x → segment ['/', '\n'] x)
    (hs : ∀ x, sub = some x → segment ['/', '\n'] x) (hc : name = none → sub = none)
    (hcan : ns = none → t = ['n', 'a', 'm', 'e', 's', 'p', 'a', 'c', 'e', 's'] → name ≠ none →
      sub = none)
    (hk : k [] (optCap 6 sub ++ (optCap 5 name ++ ((4, t) :: (optCap 3 ns ++
      ((2, v) :: caps))))) = some r) :
    (Regexp.concat (.literal ['/']) (.concat versionGroup (.concat nsQuest resourceTail))).run
      text ('/' :: (v ++ (optPart nsLit ns ++
        ('/' :: (t ++ (optPart ['/'] name ++ optPart ['/'] sub)))))) caps k = some r := by
  have hstop : ∀ d, (optPart nsLit ns ++
      ('/' :: (t ++ (optPart ['/'] name ++ optPart ['/'] sub)))).head? = some d → d ∈ ['/'] :=
    optPart_head '/' _ ns _ ['/'] (by simp) (by simp)
  have h1 := run_capture_plus_first text 2 "VERSION" ['/'] v
    (optPart nsLit ns ++ ('/' :: (t ++ (optPart ['/'] name ++ optPart ['/'] sub)))) caps
    (fun rest c => nsQuest.run text rest c (fun rest c => resourceTail.run text rest c k)) r
    hv hstop (run_nsQuest text ns t name sub _ k r hn ht hm hs hc hcan hk)
  have h2 : (Regexp.concat (.literal ['/'])
      (.concat versionGroup (.concat nsQuest resourceTail))).run text
      (['/'] ++ (v ++ (optPart nsLit ns ++
        ('/' :: (t ++ (optPart ['/'] name ++ optPart ['/'] sub)))))) caps k = some r := by
    simp only [Regexp.run.eq_4]
    rw [run_literal]
    simpa [versionGroup] using h1
  simpa using h2

theorem run_headAlt (text : List Char) (g : Option (List Char)) (rest : List Char)
    (k : List Char → Caps → Option Caps) (r : Caps)
    (hg : ∀ x, g = some x → segment ['/'] x)
    (hk : k ('/' :: rest) (optCap 1 g ++ []) = some r)
    (hslash : ∀ inp c, inp.head? ≠ some '/' → k inp c = none) :
    headAlt.run text (headPart g ++ '/' :: rest) [] k = some r := by
  cases g with
  | none =>
    have h1 : (Regexp.literal ['/', 'a', 'p', 'i']).run text
        (['/', 'a', 'p', 'i'] ++ '/' :: rest) [] k = some r := by
      rw [run_literal]
      simpa [optCap] using hk
    rw [headAlt]
    simp only [Regexp.run.eq_5, headPart, h1]
  | some x =>
    have h1 : (Regexp.literal ['/', 'a', 'p', 'i']).run text
        (headPart (some x) ++ '/' :: rest) [] k = none := by
      have : headPart (some x) ++ '/' :: rest =
          ['/', 'a', 'p', 'i'] ++ ('s' :: '/' :: (x ++ '/' :: rest)) := by
        simp [headPart]
      rw [this, run_literal]
      exact hslash _ _ (by simp)
    have h2 : (Regexp.concat (.literal ['/', 'a', 'p', 'i', 's', '/'])
        (.capture 1 "GROUP" (.plusNotIn ['/']))).run text
        (headPart (some x) ++ '/' :: rest) [] k = some r := by
      have : headPart (some x) ++ '/' :: rest =
          ['/', 'a', 'p', 'i', 's', '/'] ++ (x ++ '/' :: rest) := by
        simp [headPart]
      rw [this]
      simp only [Regexp.run.eq_4]
      rw [run_literal]
      exact run_capture_plus_first text 1 "GROUP" ['/'] x ('/' :: rest) [] k r (hg x rfl)
        (by simp) (by simpa [optCap] using hk)
    rw [headAlt]
    simp only [Regexp.run.eq_5, h1, h2]

theorem pathPattern_complete (p : PathParse) (hv : p.Valid) (hc : p.Canonical) :
    pathPattern.matchAt p.render p.render = some p.caps := by
  obtain ⟨hg, hver, hn, ht, hm, hs⟩ := hv
  obtain ⟨hc1, hc2⟩ := hc
  rw [Regexp.matchAt, pathPattern_eq]
  simp only [Regexp.run.eq_3, Regexp.run.eq_4, Regexp.run.eq_7, if_true]
  have hr : p.render = headPart p.group ++ '/' :: (p.version ++ (optPart nsLit p.ns ++
      ('/' :: (p.rtype ++ (optPart ['/'] p.name ++ optPart ['/'] p.sub))))) := by
    simp [PathParse.render, nsLit]
  have key := run_headAlt p.render p.group
    (p.version ++ (optPart nsLit p.ns ++
      ('/' :: (p.rtype ++ (optPart ['/'] p.name ++ optPart ['/'] p.sub)))))
    (fun rest caps1 => (Regexp.concat (.literal ['/'])
      (.concat versionGroup (.concat nsQuest resourceTail))).run p.render rest caps1
      (fun rest caps1 => some ((0, p.render.take (p.render.length - rest.length)) :: caps1)))
    p.caps hg
    (run_versionGroup p.render p.version p.ns p.rtype p.name p.sub _ _ p.caps hver hn ht hm hs
      hc1 hc2 (by simp [PathParse.caps, optCap]))
    (by
      intro inp c hinp
      simp only [Regexp.run.eq_4, Regexp.run.eq_1]
      cases hd : dropLiteral ['/'] inp with
      | none => rfl
      | some rest1 =>
        have := (dropLiteral_eq_some _ _ _).1 hd
        rw [this] at hinp
        simp at hinp)
  rw [← hr] at key
  simpa [Regexp.run.eq_4] using key

theorem plainSegment_segment (s : String) (h : plainSegment s) :
    segment ['/', '\n'] s.data ∧ segment ['/'] s.data := by
  obtain ⟨hne, hs, hn⟩ := h
  have hd : s.data ≠ [] := fun he => hne (String.ext he)
  refine ⟨⟨hd, ?_⟩, ⟨hd, ?_⟩⟩
  · intro x hx hm
    simp only [List.mem_cons, List.mem_singleton, List.not_mem_nil, or_false] at hm
    rcases hm with rfl | rfl
    · exact hs hx
    · exact hn hx
  · intro x hx hm
    simp only [List.mem_singleton] at hm
    subst hm
    exact hs hx

theorem segment_weaken (seg : List Char) (h : segment ['/', '\n'] seg) : segment ['/'] seg :=
  ⟨h.1, fun x hx hm => h.2 x hx (by simp only [List.mem_singleton] at hm; simp [hm])⟩

theorem exists_canonical (p : PathParse) (hv : p.Valid) :
    ∃ q : PathParse, q.Valid ∧ q.Canonical ∧ q.render = p.render := by
  obtain ⟨hg, hver, hn, ht, hm, hs⟩ := hv
  rcases p with ⟨g, v, n, t, m, s⟩
  simp only at hg hver hn ht hm hs
  -- first make the name take the single trailing segment
  have step1 : ∃ m1 s1 : Option (List Char), (∀ x, m1 = some x → segment ['/', '\n'] x) ∧
      (∀ x, s1 = some x → segment ['/', '\n'] x) ∧ (m1 = none → s1 = none) ∧
      optPart ['/'] m1 ++ optPart ['/'] s1 = optPart ['/'] m ++ optPart ['/'] s := by
    cases m with
    | some x => exact ⟨some x, s, hm, hs, by simp, rfl⟩
    | none =>
      cases s with
      | none => exact ⟨none, none, by simp, by simp, by simp, rfl⟩
      | some y => exact ⟨some y, none, hs, by simp, by simp, by simp [optPart]⟩
  obtain ⟨m1, s1, hm1, hs1, hc1, hren⟩ := step1
  by_cases hbad : n = none ∧ t = ['n', 'a', 'm', 'e', 's', 'p', 'a', 'c', 'e', 's'] ∧
      m1 ≠ none ∧ s1 ≠ none
  · obtain ⟨hn0, ht0, hm0, hs0⟩ := hbad
    subst hn0 ht0
    cases m1 with
    | none => exact absurd rfl hm0
    | some x =>
      cases s1 with
      | none => exact absurd rfl hs0
      | some y =>
        refine ⟨⟨g, v, some x, y, none, none⟩,
          ⟨hg, hver, ?_, hs1 y rfl, by simp, by simp⟩, ⟨by simp, by simp⟩, ?_⟩
        · intro z hz
          cases hz
          exact segment_weaken x (hm1 x rfl)
        · simp only [PathParse.render]
          rw [← hren]
          simp [optPart]
  · refine ⟨⟨g, v, n, t, m1, s1⟩, ⟨hg, hver, hn, ht, hm1, hs1⟩, ⟨hc1, ?_⟩, ?_⟩
    · intro h1 h2 h3
      by_contra h4
      exact hbad ⟨h1, h2, h3, h4⟩
    · simp only [PathParse.render]
      rw [hren]

theorem pathPattern_matchAt_iff (text : List Char) (caps : Caps) :
    pathPattern.matchAt text text = some caps ↔
      ∃ p : PathParse, p.Valid ∧ p.Canonical ∧ text = p.render ∧ caps = p.caps := by
  constructor
  · intro h
    obtain ⟨p, hv, ht, _⟩ := pathPattern_sound text caps h
    obtain ⟨q, hqv, hqc, hqr⟩ := exists_canonical p hv
    have hq := pathPattern_complete q hqv hqc
    rw [hqr, ← ht, h] at hq
    exact ⟨q, hqv, hqc, by rw [hqr, ht], by simpa using hq⟩
  · rintro ⟨p, hv, hc, rfl, rfl⟩
    exact pathPattern_complete p hv hc

theorem extractResource_iff (path : String) (d : ResourceDescriptor) :
    extractResource path = some d ↔
      ∃ p : PathParse, p.Valid ∧ p.Canonical ∧ path.data = p.render ∧ d = p.descriptor := by
  rw [extractResource_eq]
  constructor
  · intro h
    cases hm : pathPattern.matchAt path.data path.data with
    | none => simp [hm] at h
    | some caps =>
      obtain ⟨p, hv, hc, ht, hcaps⟩ := (pathPattern_matchAt_iff _ _).1 hm
      refine ⟨p, hv, hc, ht, ?_⟩
      obtain ⟨e3, e1, e2, e4, e5⟩ := groupText_caps p
      simp only [hm, Option.map_some', Option.some.injEq] at h
      rw [← h, hcaps, e1, e2, e3, e4, e5]
      rfl
  · rintro ⟨p, hv, hc, ht, rfl⟩
    have hm := pathPattern_complete p hv hc
    rw [← ht] at hm
    obtain ⟨e3, e1, e2, e4, e5⟩ := groupText_caps p
    rw [hm]
    simp only [Option.map_some', e1, e2, e3, e4, e5]
    rfl

theorem extractResource_grouped_full (g v n t m s : String) (hg : plainSegment g)
    (hv : plainSegment v) (hn : plainSegment n) (ht : plainSegment t) (hm : plainSegment m)
    (hs : plainSegment s) :
    extractResource ("/apis/" ++ g ++ "/" ++ v ++ "/namespaces/" ++ n ++ "/" ++ t ++ "/" ++ m ++
      "/" ++ s) =
      some { ns := n, resourceGroup := g, resourceVersion := v, resourceType := t,
             resourceName := m, subresource := m } := by
  rw [extractResource_iff]
  refine ⟨⟨some g.data, v.data, some n.data, t.data, some m.data, some s.data⟩,
    ⟨?_, (plainSegment_segment v hv).2, ?_, (plainSegment_segment t ht).1, ?_, ?_⟩,
    ⟨by simp, by simp⟩, ?_, rfl⟩
  · intro x hx; cases hx; exact (plainSegment_segment g hg).2
  · intro x hx; cases hx; exact (plainSegment_segment n hn).2
  · intro x hx; cases hx; exact (plainSegment_segment m hm).1
  · intro x hx; cases hx; exact (plainSegment_segment s hs).1
  · simp [PathParse.render, headPart, optPart, String.data_append]

theorem extractResource_core_named (v n t m : String) (hv : plainSegment v)
    (hn : plainSegment n) (ht : plainSegment t) (hm : plainSegment m) :
    extractResource ("/api/" ++ v ++ "/namespaces/" ++ n ++ "/" ++ t ++ "/" ++ m) =
      some { ns := n, resourceGroup := "", resourceVersion := v, resourceType := t,
             resourceName := m, subresource := m } := by
  rw [extractResource_iff]
  refine ⟨⟨none, v.data, some n.data, t.data, some m.data, none⟩,
    ⟨by simp, (plainSegment_segment v hv).2, ?_, (plainSegment_segment t ht).1, ?_, by simp⟩,
    ⟨by simp, by simp⟩, ?_, rfl⟩
  · intro x hx; cases hx; exact (plainSegment_segment n hn).2
  · intro x hx; cases hx; exact (plainSegment_segment m hm).1
  · simp [PathParse.render, headPart, optPart, String.data_append]

/-! ## Events of a call -/

theorem oracleQueries_map_oracle (qs : List SubjectAccessReview) :
    oracleQueries (qs.map Event.oracle) = qs := by
  induction qs with
  | nil => rfl
  | cons q qs ih => simp [oracleQueries, ih]

theorem oracleQueries_append_forward (qs : List SubjectAccessReview) (r : Request) :
    oracleQueries (qs.map Event.oracle ++ [Event.forward r]) = qs := by
  induction qs with
  | nil => rfl
  | cons q qs ih => simp [oracleQueries, ih]

theorem forwardedRequests_map_oracle (qs : List SubjectAccessReview) :
    forwardedRequests (qs.map Event.oracle) = [] := by
  induction qs with
  | nil => rfl
  | cons q qs ih => simp [forwardedRequests, ih]

theorem forwardedRequests_append_forward (qs : List SubjectAccessReview) (r : Request) :
    forwardedRequests (qs.map Event.oracle ++ [Event.forward r]) = [r] := by
  induction qs with
  | nil => rfl
  | cons q qs ih => simp [forwardedRequests, ih]

theorem extractResource_of_matches (path : String) :
    extractResource path = (pathPattern.FindStringSubmatch path).map (fun matched =>
      { ns := matched.getD 3 ""
        resourceGroup := matched.getD 1 ""
        resourceVersion := matched.getD 2 ""
        resourceType := matched.getD 4 ""
        resourceName := matched.getD 5 ""
        subresource := matched.getD 5 "" }) := by
  have h3 : pathPattern.SubexpIndex "NAMESPACE" = 3 := by decide
  have h1 : pathPattern.SubexpIndex "GROUP" = 1 := by decide
  have h2 : pathPattern.SubexpIndex "VERSION" = 2 := by decide
  have h4 : pathPattern.SubexpIndex "RESOURCETYPE" = 4 := by decide
  have h5 : pathPattern.SubexpIndex "NAME" = 5 := by decide
  unfold extractResource
  simp only [h1, h2, h3, h4, h5]
  cases pathPattern.FindStringSubmatch path with
  | none => rfl
  | some matched => simp [submatch]

theorem RoundTrip_queries_none_of_bad (rt : impersonateRoundTripper) (req : Request)
    (h : extractResource req.URL.Path = none ∨ req.Method ∉ mappedMethods) :
    oracleQueries (rt.RoundTrip req).trace = [] := by
  cases hc : GetImpersonateClient req.ctx with
  | none => rw [RoundTrip_no_client rt req hc]; rfl
  | some c =>
    cases hp : extractResource req.URL.Path with
    | none => rw [RoundTrip_bad_path rt req c hc hp]; rfl
    | some d =>
      rcases h with h | h
      · rw [hp] at h; cases h
      · rw [RoundTrip_bad_verb rt req c d _ hc hp (requestVerb_unmapped req h)]; rfl

/-! ## Reading the descriptor off the path -/

theorem namespaces_segment : segment ['/', '\n'] ['n', 'a', 'm', 'e', 's', 'p', 'a', 'c', 'e', 's'] :=
  ⟨by simp, by decide⟩

theorem optText_ne_empty (o : Option (List Char)) (ex : List Char)
    (h : ∀ x, o = some x → segment ex x) (hne : optText o ≠ "") :
    ∃ x, o = some x ∧ optText o = String.mk x ∧ segment ex x := by
  cases o with
  | none => exact absurd rfl hne
  | some x => exact ⟨x, rfl, rfl, h x rfl⟩

theorem apiHead_data (p : PathParse) (hv : p.Valid) :
    (apiHead p.descriptor.resourceGroup).data = headPart p.group := by
  rcases p with ⟨g, v, n, t, m, s⟩
  cases g with
  | none => rfl
  | some g =>
    have hne : g ≠ [] := (hv.1 g rfl).1
    have : (String.mk g) ≠ "" := fun h => hne (by simpa using congrArg String.data h)
    simp [apiHead, PathParse.descriptor, optText, this, headPart, String.data_append]

theorem render_after_version (p : PathParse) (hv : p.Valid) :
    ∃ after : List Char, p.render = headPart p.group ++ '/' :: (p.version ++ '/' :: after) ∧
      (∀ n, p.ns = some n → ∃ rest, rest ≠ [] ∧ rest.head? ≠ some '/' ∧
        after = ['n', 'a', 'm', 'e', 's', 'p', 'a', 'c', 'e', 's'] ++ '/' :: (n ++ '/' :: rest)) := by
  obtain ⟨_, _, _, ht, _, _⟩ := hv
  rcases p with ⟨g, v, n, t, m, s⟩
  simp only at ht
  cases n with
  | none =>
    exact ⟨t ++ (optPart ['/'] m ++ optPart ['/'] s), by simp [PathParse.render, optPart],
      by simp⟩
  | some n =>
    refine ⟨['n', 'a', 'm', 'e', 's', 'p', 'a', 'c', 'e', 's'] ++
      '/' :: (n ++ '/' :: (t ++ (optPart ['/'] m ++ optPart ['/'] s))),
      by simp [PathParse.render, optPart], ?_⟩
    intro n1 hn1
    cases hn1
    refine ⟨t ++ (optPart ['/'] m ++ optPart ['/'] s), ?_, ?_, rfl⟩
    · intro h
      exact ht.1 (List.append_eq_nil.1 h).1
    · cases t with
      | nil => exact absurd rfl ht.1
      | cons c cs =>
        intro h
        simp only [List.cons_append, List.head?_cons, Option.some.injEq] at h
        exact ht.2 c (List.mem_cons_self _ _) (by simp [h])

/-! ## Shape of a label made of segments -/

theorem hasDoubleSlash_cons_of_ne (c : Char) (l : List Char) (hc : c ≠ '/') :
    hasDoubleSlash (c :: l) = hasDoubleSlash l := by
  cases l with
  | nil => rfl
  | cons d rest => simp [hasDoubleSlash, hc]

theorem hasDoubleSlash_slash_cons (l : List Char) (h : l.head? ≠ some '/') :
    hasDoubleSlash ('/' :: l) = hasDoubleSlash l := by
  cases l with
  | nil => rfl
  | cons d rest =>
    have hd : d ≠ '/' := fun he => h (by simp [he])
    simp [hasDoubleSlash, hd]

theorem hasDoubleSlash_segment_append (seg b : List Char) (hs : '/' ∉ seg)
    (hb : b.head? ≠ some '/') (hbd : hasDoubleSlash b = false) :
    hasDoubleSlash (seg ++ '/' :: b) = false := by
  induction seg with
  | nil =>
    rw [List.nil_append, hasDoubleSlash_slash_cons b hb]
    exact hbd
  | cons c cs ih =>
    have hc : c ≠ '/' := fun he => hs (by simp [he])
    rw [List.cons_append, hasDoubleSlash_cons_of_ne c _ hc]
    exact ih (fun hm => hs (List.mem_cons_of_mem _ hm))

theorem hasDoubleSlash_segment (seg : List Char) (hs : '/' ∉ seg) :
    hasDoubleSlash seg = false := by
  induction seg with
  | nil => rfl
  | cons c cs ih =>
    have hc : c ≠ '/' := fun he => hs (by simp [he])
    rw [hasDoubleSlash_cons_of_ne c _ hc]
    exact ih (fun hm => hs (List.mem_cons_of_mem _ hm))

theorem joinSegs_shape (l : List (List Char)) (hl : l ≠ [])
    (hall : ∀ x ∈ l, x ≠ [] ∧ '/' ∉ x) :
    joinSegs l ≠ [] ∧ (joinSegs l).head? ≠ some '/' ∧ (joinSegs l).getLast? ≠ some '/' ∧
      hasDoubleSlash (joinSegs l) = false := by
  induction l with
  | nil => exact absurd rfl hl
  | cons a rest ih =>
    obtain ⟨hane, has⟩ := hall a (List.mem_cons_self _ _)
    have hhead : ∀ tl : List Char, (a ++ tl).head? ≠ some '/' := by
      intro tl
      cases a with
      | nil => exact absurd rfl hane
      | cons c cs =>
        intro h
        simp only [List.cons_append, List.head?_cons, Option.some.injEq] at h
        exact has (by simp [h])
    cases rest with
    | nil =>
      refine ⟨hane, by simpa using hhead [], ?_, hasDoubleSlash_segment a has⟩
      intro h
      exact has (List.mem_of_getLast?_eq_some h)
    | cons b rest2 =>
      obtain ⟨h1, h2, h3, h4⟩ := ih (by simp)
        (fun x hx => hall x (List.mem_cons_of_mem _ hx))
      refine ⟨by simp [joinSegs], hhead _, ?_, hasDoubleSlash_segment_append a _ has h2 h4⟩
      show (a ++ '/' :: joinSegs (b :: rest2)).getLast? ≠ some '/'
      rw [List.getLast?_append_of_ne_nil _ (by simp)]
      cases hj : joinSegs (b :: rest2) with
      | nil => exact absurd hj h1
      | cons x xs =>
        rw [List.getLast?_cons_cons, ← hj]
        exact h3

theorem mk_ne_empty (l : List Char) (h : l ≠ []) : String.mk l ≠ "" :=
  fun he => h (by simpa using congrArg String.data he)

theorem descriptor_no_slash (p : PathParse) (hv : p.Valid) :
    '/' ∉ p.descriptor.resourceGroup.data ∧ '/' ∉ p.descriptor.resourceVersion.data ∧
    '/' ∉ p.descriptor.resourceType.data ∧ '/' ∉ p.descriptor.resourceName.data ∧
    '/' ∉ p.descriptor.subresource.data ∧ '/' ∉ p.descriptor.ns.data := by
  obtain ⟨hg, hver, hn, ht, hm, _⟩ := hv
  rcases p with ⟨g, v, n, t, m, s⟩
  simp only at hg hver hn ht hm
  have hopt : ∀ (o : Option (List Char)) (ex : List Char), '/' ∈ ex →
      (∀ x, o = some x → segment ex x) → '/' ∉ (optText o).data := by
    intro o ex hex ho
    cases o with
    | none => simp [optText]
    | some x => exact segment_no_slash ex x hex (ho x rfl)
  exact ⟨hopt g _ (by simp) hg, segment_no_slash _ _ (by simp) hver,
    segment_no_slash _ _ (by simp) ht, hopt m _ (by simp) hm, hopt m _ (by simp) hm,
    hopt n _ (by simp) hn⟩

theorem label_data (p : PathParse) (hv : p.Valid) :
    (resourceString p.descriptor.resourceGroup p.descriptor.resourceVersion
      p.descriptor.resourceType p.descriptor.resourceName p.descriptor.subresource).data =
      joinSegs (optList p.group ++ ([p.version, p.rtype] ++ (optList p.name ++ optList p.name))) := by
  have hslash := (descriptor_no_slash p hv).1
  have hg0 : ¬ startsWithSlash p.descriptor.resourceGroup := by
    intro h
    apply hslash
    unfold startsWithSlash at h
    exact List.mem_of_mem_head? h
  rw [resourceString_eq_join _ _ _ _ _ hg0]
  obtain ⟨hg, hver, _, ht, hm, _⟩ := hv
  rcases p with ⟨g, v, n, t, m, s⟩
  simp only at hg hver ht hm
  have hvne := mk_ne_empty v hver.1
  have htne := mk_ne_empty t ht.1
  cases g with
  | none =>
    cases m with
    | none =>
      simp [joinNonEmpty, PathParse.descriptor, optText, hvne, htne, String.intercalate,
        String.intercalate.go, String.data_append, joinSegs, optList]
    | some m =>
      have hmne := mk_ne_empty m (hm m rfl).1
      simp [joinNonEmpty, PathParse.descriptor, optText, hvne, htne, hmne, String.intercalate,
        String.intercalate.go, String.data_append, joinSegs, optList]
  | some g =>
    have hgne := mk_ne_empty g (hg g rfl).1
    cases m with
    | none =>
      simp [joinNonEmpty, PathParse.descriptor, optText, hvne, htne, hgne, String.intercalate,
        String.intercalate.go, String.data_append, joinSegs, optList]
    | some m =>
      have hmne := mk_ne_empty m (hm m rfl).1
      simp [joinNonEmpty, PathParse.descriptor, optText, hvne, htne, hgne, hmne,
        String.intercalate, String.intercalate.go, String.data_append, joinSegs, optList]

theorem label_segments (p : PathParse) (hv : p.Valid) :
    ∀ x ∈ optList p.group ++ ([p.version, p.rtype] ++ (optList p.name ++ optList p.name)),
      x ≠ [] ∧ '/' ∉ x := by
  obtain ⟨hg, hver, _, ht, hm, _⟩ := hv
  have hopt : ∀ (o : Option (List Char)) (ex : List Char), '/' ∈ ex →
      (∀ x, o = some x → segment ex x) → ∀ x ∈ optList o, x ≠ [] ∧ '/' ∉ x := by
    intro o ex hex ho x hx
    cases o with
    | none => simp [optList] at hx
    | some y =>
      simp only [optList, List.mem_singleton] at hx
      subst hx
      exact ⟨(ho x rfl).1, segment_no_slash ex x hex (ho x rfl)⟩
  intro x hx
  simp only [List.mem_append, List.mem_cons, List.mem_singleton, List.not_mem_nil,
    or_false] at hx
  rcases hx with hx | (hx | hx) | hx | hx
  · exact hopt p.group _ (by simp) hg x hx
  · subst hx; exact ⟨hver.1, segment_no_slash _ _ (by simp) hver⟩
  · subst hx; exact ⟨ht.1, segment_no_slash _ _ (by simp) ht⟩
  · exact hopt p.name _ (by simp) hm x hx
  · exact hopt p.name _ (by simp) hm x hx

/-! ## Splitting a path on `/` -/

theorem splitSlash_ne_nil (t : List Char) : splitSlash t ≠ [] := by
  cases t with
  | nil => simp [splitSlash]
  | cons c cs =>
    by_cases hc : c = '/'
    · simp [splitSlash, hc]
    · cases hs : splitSlash cs <;> simp [splitSlash, hc, consHead, hs]

theorem splitSlash_segment (a : List Char) (ha : '/' ∉ a) : splitSlash a = [a] := by
  induction a with
  | nil => rfl
  | cons c cs ih =>
    have hc : c ≠ '/' := fun he => ha (by simp [he])
    simp [splitSlash, hc, ih (fun hm => ha (List.mem_cons_of_mem _ hm)), consHead]

theorem splitSlash_segment_append (a rest : List Char) (ha : '/' ∉ a) :
    splitSlash (a ++ '/' :: rest) = a :: splitSlash rest := by
  induction a with
  | nil => simp [splitSlash]
  | cons c cs ih =>
    have hc : c ≠ '/' := fun he => ha (by simp [he])
    simp [splitSlash, hc, ih (fun hm => ha (List.mem_cons_of_mem _ hm)), consHead]

theorem splitSlash_joinSegs (l : List (List Char)) (hl : l ≠ []) (hall : ∀ x ∈ l, '/' ∉ x) :
    splitSlash (joinSegs l) = l := by
  induction l with
  | nil => exact absurd rfl hl
  | cons a rest ih =>
    cases rest with
    | nil => exact splitSlash_segment a (hall a (List.mem_cons_self _ _))
    | cons b rest2 =>
      show splitSlash (a ++ '/' :: joinSegs (b :: rest2)) = _
      rw [splitSlash_segment_append a _ (hall a (List.mem_cons_self _ _)),
        ih (by simp) (fun x hx => hall x (List.mem_cons_of_mem _ hx))]

theorem joinSegs_cons_cons (c : Char) (s : List Char) (ss : List (List Char)) :
    joinSegs ((c :: s) :: ss) = c :: joinSegs (s :: ss) := by
  cases ss <;> rfl

theorem joinSegs_splitSlash (t : List Char) : joinSegs (splitSlash t) = t := by
  induction t with
  | nil => rfl
  | cons c cs ih =>
    cases hs : splitSlash cs with
    | nil => exact absurd hs (splitSlash_ne_nil cs)
    | cons s ss =>
      rw [hs] at ih
      by_cases hc : c = '/'
      · simp [splitSlash, hc, hs, joinSegs, ih]
      · simp [splitSlash, hc, hs, consHead, joinSegs_cons_cons, ih]

theorem splitSlash_mem (t : List Char) :
    ∀ x ∈ splitSlash t, '/' ∉ x ∧ ∀ c ∈ x, c ∈ t := by
  induction t with
  | nil =>
    intro x hx
    simp only [splitSlash, List.mem_singleton] at hx
    subst hx
    simp
  | cons c cs ih =>
    intro x hx
    by_cases hc : c = '/'
    · simp only [splitSlash, hc, if_true, List.mem_cons] at hx
      rcases hx with rfl | hx
      · simp
      · obtain ⟨h1, h2⟩ := ih x hx
        exact ⟨h1, fun d hd => List.mem_cons_of_mem _ (h2 d hd)⟩
    · simp only [splitSlash, hc, if_false] at hx
      cases hs : splitSlash cs with
      | nil => exact absurd hs (splitSlash_ne_nil cs)
      | cons s ss =>
        rw [hs] at hx ih
        simp only [consHead, List.mem_cons] at hx
        rcases hx with rfl | hx
        · obtain ⟨h1, h2⟩ := ih s (List.mem_cons_self _ _)
          refine ⟨?_, ?_⟩
          · intro hm
            rcases List.mem_cons.1 hm with he | hm
            · exact hc he.symm
            · exact h1 hm
          · intro d hd
            rcases List.mem_cons.1 hd with rfl | hd
            · exact List.mem_cons_self _ _
            · exact List.mem_cons_of_mem _ (h2 d hd)
        · obtain ⟨h1, h2⟩ := ih x (List.mem_cons_of_mem _ hx)
          exact ⟨h1, fun d hd => List.mem_cons_of_mem _ (h2 d hd)⟩

theorem render_eq_joinSegs (p : PathParse) : p.render = joinSegs ([] :: p.segs) := by
  rcases p with ⟨g, v, n, t, m, s⟩
  cases g <;> cases n <;> cases m <;> cases s <;>
    simp [PathParse.render, PathParse.segs, leadSegs, nsSegs, headPart, optPart, optList,
      joinSegs]

/-! ## The pattern and the grammar of the specification -/

theorem accepted_iff_valid (path : String) :
    (∃ d, extractResource path = some d) ↔ ∃ p : PathParse, p.Valid ∧ path.data = p.render := by
  constructor
  · rintro ⟨d, hd⟩
    obtain ⟨p, hv, ht, _⟩ := extractResource_sound path d hd
    exact ⟨p, hv, ht⟩
  · rintro ⟨p, hv, ht⟩
    obtain ⟨q, hqv, hqc, hqr⟩ := exists_canonical p hv
    exact ⟨q.descriptor, (extractResource_iff path q.descriptor).2
      ⟨q, hqv, hqc, by rw [ht, hqr], rfl⟩⟩

theorem matched_iff_extracted (path : String) :
    (∃ m, pathPattern.FindStringSubmatch path = some m) ↔ ∃ d, extractResource path = some d := by
  rw [extractResource_of_matches]
  cases pathPattern.FindStringSubmatch path with
  | none => simp
  | some m => simp

theorem segs_valid (p : PathParse) (hv : p.Valid) : ∀ x ∈ p.segs, x ≠ [] ∧ '/' ∉ x := by
  obtain ⟨hg, hver, hn, ht, hm, hs⟩ := hv
  rcases p with ⟨g, v, n, t, m, s⟩
  simp only at hg hver hn ht hm hs
  have hopt : ∀ (o : Option (List Char)) (ex : List Char), '/' ∈ ex →
      (∀ x, o = some x → segment ex x) → ∀ x ∈ optList o, x ≠ [] ∧ '/' ∉ x := by
    intro o ex hex ho x hx
    cases o with
    | none => simp [optList] at hx
    | some y =>
      simp only [optList, List.mem_singleton] at hx
      subst hx
      exact ⟨(ho x rfl).1, segment_no_slash ex x hex (ho x rfl)⟩
  have hV : v ≠ [] ∧ '/' ∉ v := ⟨hver.1, segment_no_slash _ _ (by simp) hver⟩
  have hT : t ≠ [] ∧ '/' ∉ t := ⟨ht.1, segment_no_slash _ _ (by simp) ht⟩
  intro x hx
  simp only [PathParse.segs, List.mem_append, List.mem_cons] at hx
  rcases hx with hx | hx | hx | hx | hx
  · cases g with
    | none =>
      simp only [leadSegs, List.mem_cons, List.mem_singleton, List.not_mem_nil, or_false] at hx
      rcases hx with rfl | rfl
      · exact ⟨by simp, by decide⟩
      · exact hV
    | some g =>
      simp only [leadSegs, List.mem_cons, List.mem_singleton, List.not_mem_nil, or_false] at hx
      rcases hx with rfl | rfl | rfl
      · exact ⟨by simp, by decide⟩
      · exact ⟨(hg _ rfl).1, segment_no_slash _ _ (by simp) (hg _ rfl)⟩
      · exact hV
  · cases n with
    | none => simp [nsSegs] at hx
    | some n =>
      simp only [nsSegs, List.mem_cons, List.mem_singleton, List.not_mem_nil, or_false] at hx
      rcases hx with rfl | rfl
      · exact ⟨by simp, by decide⟩
      · exact ⟨(hn _ rfl).1, segment_no_slash _ _ (by simp) (hn _ rfl)⟩
  · subst hx; exact hT
  · exact hopt m _ (by simp) hm x hx
  · exact hopt s _ (by simp) hs x hx

theorem specGrammar_of_valid (path : String) (p : PathParse) (hv : p.Valid)
    (ht : path.data = p.render) : specGrammar path := by
  have hsegs := segs_valid p hv
  have hsplit : splitSlash path.data = [] :: p.segs := by
    rw [ht, render_eq_joinSegs]
    apply splitSlash_joinSegs _ (by simp)
    intro x hx
    rcases List.mem_cons.1 hx with rfl | hx
    · simp
    · exact (hsegs x hx).2
  rcases p with ⟨g, v, n, t, m, s⟩
  refine ⟨leadSegs g v, nsSegs n, t :: (optList m ++ optList s), hsplit, ?_, ?_, ?_, ?_,
    fun seg hseg => (hsegs seg hseg).1⟩
  · cases g with
    | none => exact Or.inl ⟨v, rfl⟩
    | some g => exact Or.inr ⟨g, v, rfl⟩
  · cases n with
    | none => exact Or.inl rfl
    | some n => exact Or.inr ⟨n, rfl⟩
  · simp
  · cases m <;> cases s <;> simp [optList]

theorem valid_of_specGrammar (path : String) (hnl : '\n' ∉ path.data) (h : specGrammar path) :
    ∃ p : PathParse, p.Valid ∧ path.data = p.render := by
  obtain ⟨lead, nsPair, more, hsplit, hlead, hns, hlen1, hlen3, hne⟩ := h
  have hjoin : path.data = joinSegs ([] :: (lead ++ (nsPair ++ more))) := by
    rw [← hsplit, joinSegs_splitSlash]
  have hseg : ∀ x ∈ lead ++ (nsPair ++ more), segment ['/', '\n'] x := by
    intro x hx
    obtain ⟨h1, h2⟩ := splitSlash_mem path.data x (by rw [hsplit]; exact List.mem_cons_of_mem _ hx)
    refine ⟨hne x hx, ?_⟩
    intro c hc hm
    simp only [List.mem_cons, List.mem_singleton, List.not_mem_nil, or_false] at hm
    rcases hm with rfl | rfl
    · exact h1 hc
    · exact hnl (h2 _ hc)
  have hsome : ∀ (ex x : List Char), segment ex x → ∀ z, some x = some z → segment ex z := by
    intro ex x hx z hz
    rw [← Option.some.inj hz]
    exact hx
  have hmore : ∃ (t : List Char) (m s : Option (List Char)),
      more = t :: (optList m ++ optList s) ∧ segment ['/', '\n'] t ∧
      (∀ x, m = some x → segment ['/', '\n'] x) ∧ (∀ x, s = some x → segment ['/', '\n'] x) := by
    have hin : ∀ x ∈ more, segment ['/', '\n'] x := fun x hx =>
      hseg x (List.mem_append_right _ (List.mem_append_right _ hx))
    match more, hlen1, hlen3, hin with
    | [t], _, _, hin =>
      exact ⟨t, none, none, rfl, hin t (by simp), by simp, by simp⟩
    | [t, m], _, _, hin =>
      exact ⟨t, some m, none, rfl, hin t (by simp), hsome _ m (hin m (by simp)), by simp⟩
    | [t, m, s], _, _, hin =>
      exact ⟨t, some m, some s, rfl, hin t (by simp), hsome _ m (hin m (by simp)),
        hsome _ s (hin s (by simp))⟩
    | [], h1, _, _ => simp at h1
    | _ :: _ :: _ :: _ :: _, _, h3, _ => simp at h3
  obtain ⟨t, m, s, hmore_eq, ht, hm, hs⟩ := hmore
  have hnsv : ∃ n : Option (List Char), (∀ x, n = some x → segment ['/'] x) ∧
      nsPair = nsSegs n := by
    rcases hns with hns | ⟨n, hns⟩
    · exact ⟨none, by simp, hns⟩
    · exact ⟨some n, hsome _ n (segment_weaken n (hseg n (by simp [hns]))), hns⟩
  obtain ⟨n, hn, hns_eq⟩ := hnsv
  rcases hlead with ⟨v, hl⟩ | ⟨g, v, hl⟩
  · refine ⟨⟨none, v, n, t, m, s⟩, ⟨by simp, ?_, hn, ht, hm, hs⟩, ?_⟩
    · exact segment_weaken v (hseg v (by simp [hl]))
    · rw [hjoin, render_eq_joinSegs, hl, hns_eq, hmore_eq]
      rfl
  · refine ⟨⟨some g, v, n, t, m, s⟩, ⟨?_, ?_, hn, ht, hm, hs⟩, ?_⟩
    · exact hsome _ g (segment_weaken g (hseg g (by simp [hl])))
    · exact segment_weaken v (hseg v (by simp [hl]))
    · rw [hjoin, render_eq_joinSegs, hl, hns_eq, hmore_eq]
      rfl

/-! ## The claims -/

/-- C1. Deny by default: the inner transport is invoked exactly when the client is present, the
path is accepted, the method is mapped and `AccessReview` returned nil; otherwise `RoundTrip`
returns a nil response with a non-nil error; and the `AccessReview` of `client` returns nil
exactly when the oracle call succeeded with the answer allowed. -/
theorem RoundTrip_deny_by_default (rt : impersonateRoundTripper) (req : Request) :
    ((rt.RoundTrip req).trace.any Event.isForward = true ↔
      ∃ c d verb, GetImpersonateClient req.ctx = some c ∧
        extractResource req.URL.Path = some d ∧ requestVerb req = .ok verb ∧
        (c.AccessReview rt.username d.ns verb d.resourceGroup d.resourceVersion d.resourceType
          d.resourceName d.subresource).err = none) ∧
    ((rt.RoundTrip req).trace.any Event.isForward = true ∨
      ((rt.RoundTrip req).resp = none ∧ ∃ e, (rt.RoundTrip req).err = some e)) ∧
    (∀ (s : client) (u ns verb g v t n sub : String),
      (s.AccessReview u ns verb g v t n sub).err = none ↔
        (s.kubeClient (reviewQuery u ns verb g v t n sub)).2 = none ∧
        (s.kubeClient (reviewQuery u ns verb g v t n sub)).1.Status.Allowed = true) := by
  refine ⟨?_, ?_, fun s u ns verb g v t n sub => AccessReview_err_none_iff s u ns verb g v t n sub⟩
  · cases hc : GetImpersonateClient req.ctx with
    | none =>
      rw [RoundTrip_no_client rt req hc]
      simp
    | some c =>
      cases hp : extractResource req.URL.Path with
      | none =>
        rw [RoundTrip_bad_path rt req c hc hp]
        simp
      | some d =>
        cases hv : requestVerb req with
        | error e =>
          rw [RoundTrip_bad_verb rt req c d e hc hp hv]
          simp
        | ok verb =>
          cases he : (c.AccessReview rt.username d.ns verb d.resourceGroup d.resourceVersion
            d.resourceType d.resourceName d.subresource).err with
          | some e =>
            rw [RoundTrip_review_err rt req c d verb e hc hp hv he]
            simp only [any_isForward_map_oracle, Bool.false_eq_true, false_iff, not_exists,
              not_and]
            intro c1 d1 verb1 h1 h2 h3
            cases h1
            cases h2
            cases h3
            rw [he]
            simp
          | none =>
            rw [RoundTrip_review_ok rt req c d verb hc hp hv he]
            simp only [List.any_append, any_isForward_map_oracle, List.any_cons,
              Event.isForward, List.any_nil, Bool.or_false, Bool.false_or, true_iff]
            exact ⟨c, d, verb, rfl, rfl, rfl, he⟩
  · cases hc : GetImpersonateClient req.ctx with
    | none =>
      rw [RoundTrip_no_client rt req hc]
      simp
    | some c =>
      cases hp : extractResource req.URL.Path with
      | none =>
        rw [RoundTrip_bad_path rt req c hc hp]
        simp
      | some d =>
        cases hv : requestVerb req with
        | error e =>
          rw [RoundTrip_bad_verb rt req c d e hc hp hv]
          simp
        | ok verb =>
          cases he : (c.AccessReview rt.username d.ns verb d.resourceGroup d.resourceVersion
            d.resourceType d.resourceName d.subresource).err with
          | some e =>
            rw [RoundTrip_review_err rt req c d verb e hc hp hv he]
            simp
          | none =>
            rw [RoundTrip_review_ok rt req c d verb hc hp hv he]
            simp [Event.isForward]

/-- C2, evaluated at `/apis/apps/v1/namespaces/ns1/deployments/dep1/status`: the path is
accepted and the group `SUBRESOURCE` matches `status`, yet the subresource `RoundTrip` extracts
and sends to the oracle is `dep1`, the text of the group `NAME`. -/
theorem grouped_path_subresource_is_name :
    pathPattern.FindStringSubmatch "/apis/apps/v1/namespaces/ns1/deployments/dep1/status" =
      some ["/apis/apps/v1/namespaces/ns1/deployments/dep1/status", "apps", "v1", "ns1",
        "deployments", "dep1", "status"] ∧
    extractResource "/apis/apps/v1/namespaces/ns1/deployments/dep1/status" =
      some { ns := "ns1", resourceGroup := "apps", resourceVersion := "v1",
             resourceType := "deployments", resourceName := "dep1", subresource := "dep1" } ∧
    oracleQueries ((NewImpersonateRoundTripper innerOK "alice").RoundTrip
      (sampleRequest "GET" "/apis/apps/v1/namespaces/ns1/deployments/dep1/status"
        (some (NewClient oracleAllow).1))).trace =
      [reviewQuery "alice" "ns1" "get" "apps" "v1" "deployments" "dep1" "dep1"] := by
  refine ⟨by decide, by decide, by decide⟩

/-- C3, evaluated at `/api/v1/namespaces/ns1/pods/pod1`: the path is accepted and the group
`SUBRESOURCE` takes no part in the match, yet the subresource `RoundTrip` extracts and sends to
the oracle is `pod1`, not the empty string. -/
theorem core_path_subresource_is_name :
    pathPattern.FindStringSubmatch "/api/v1/namespaces/ns1/pods/pod1" =
      some ["/api/v1/namespaces/ns1/pods/pod1", "", "v1", "ns1", "pods", "pod1", ""] ∧
    extractResource "/api/v1/namespaces/ns1/pods/pod1" =
      some { ns := "ns1", resourceGroup := "", resourceVersion := "v1",
             resourceType := "pods", resourceName := "pod1", subresource := "pod1" } ∧
    oracleQueries ((NewImpersonateRoundTripper innerOK "alice").RoundTrip
      (sampleRequest "GET" "/api/v1/namespaces/ns1/pods/pod1"
        (some (NewClient oracleAllow).1))).trace =
      [reviewQuery "alice" "ns1" "get" "" "v1" "pods" "pod1" "pod1"] := by
  refine ⟨by decide, by decide, by decide⟩

/-- C4. The verb table: the empty method and `GET` give `get`, `POST` gives `create`, `PUT`
gives `update`, `PATCH` gives `patch`, `DELETE` gives `delete`; every other method `m` fails
with the Internal status error whose message carries `m` and the request URL, which is what
`RoundTrip` then returns without calling the oracle or the inner transport; and the mapping
succeeds exactly on the six strings. -/
theorem requestVerb_table (m : String) (url : URL) (ctx : Context) :
    requestVerb ⟨"", url, ctx⟩ = .ok "get" ∧ requestVerb ⟨"GET", url, ctx⟩ = .ok "get" ∧
    requestVerb ⟨"POST", url, ctx⟩ = .ok "create" ∧ requestVerb ⟨"PUT", url, ctx⟩ = .ok "update" ∧
    requestVerb ⟨"PATCH", url, ctx⟩ = .ok "patch" ∧
    requestVerb ⟨"DELETE", url, ctx⟩ = .ok "delete" ∧
    (m ∉ mappedMethods →
      requestVerb ⟨m, url, ctx⟩ = .error (GoError.status Code.Internal
        ("Could not calcluate kubernetes resource verb for " ++ m ++ " on " ++ url.rendered)) ∧
      ∀ (rt : impersonateRoundTripper) (c : Client) (d : ResourceDescriptor),
        GetImpersonateClient ctx = some c → extractResource url.Path = some d →
        rt.RoundTrip ⟨m, url, ctx⟩ = ⟨none, some (GoError.status Code.Internal
          ("Could not calcluate kubernetes resource verb for " ++ m ++ " on " ++ url.rendered)),
          []⟩) ∧
    ((∃ verb, requestVerb ⟨m, url, ctx⟩ = .ok verb) ↔ m ∈ mappedMethods) := by
  refine ⟨by simp [requestVerb], by simp [requestVerb], by simp [requestVerb],
    by simp [requestVerb], by simp [requestVerb], by simp [requestVerb], ?_,
    requestVerb_ok_iff ⟨m, url, ctx⟩⟩
  intro hm
  have hv := requestVerb_unmapped ⟨m, url, ctx⟩ hm
  refine ⟨hv, ?_⟩
  intro rt c d hc hp
  exact RoundTrip_bad_verb rt ⟨m, url, ctx⟩ c d _ hc hp hv

/-- Witness of C4: the lower-case method `get` on an accepted path. -/
theorem requestVerb_table_witness :
    "get" ∉ mappedMethods ∧
    requestVerb (sampleRequest "get" "/api/v1/pods" (some (NewClient oracleAllow).1)) =
      .error (GoError.status Code.Internal
        "Could not calcluate kubernetes resource verb for get on https://kubernetes.default.svc/api/v1/pods") ∧
    ((NewImpersonateRoundTripper innerOK "alice").RoundTrip
      (sampleRequest "get" "/api/v1/pods" (some (NewClient oracleAllow).1))).err =
      some (GoError.status Code.Internal
        "Could not calcluate kubernetes resource verb for get on https://kubernetes.default.svc/api/v1/pods") :=
  have h := (requestVerb_table "get"
    (sampleRequest "get" "/api/v1/pods" (some (NewClient oracleAllow).1)).URL
    (sampleRequest "get" "/api/v1/pods" (some (NewClient oracleAllow).1)).ctx).2.2.2.2.2.2.1
    (by decide)
  ⟨by decide, h.1, congrArg Outcome.err
    (h.2 (NewImpersonateRoundTripper innerOK "alice") (NewClient oracleAllow).1
      ⟨"", "", "v1", "pods", "", ""⟩ rfl (by decide))⟩

/-- The statement of C5 as written fails. With group `/a` and the four other values empty the
label is `a`, while the non-empty values joined by `/` give `/a`; and with group `//a` the
label is `/a`, which starts with `/`. -/
theorem resourceString_leading_slash :
    resourceString "/a" "" "" "" "" = "a" ∧ joinNonEmpty ["/a", "", "", "", ""] = "/a" ∧
    resourceString "/a" "" "" "" "" ≠ joinNonEmpty ["/a", "", "", "", ""] ∧
    resourceString "//a" "" "" "" "" = "/a" ∧
    startsWithSlash (resourceString "//a" "" "" "" "") := by
  refine ⟨by decide, by decide, by decide, by decide, by decide⟩

/-- C5, amended. When the group does not start with `/`, the label equals the non-empty values
among group, version, resourceType, resourceName, subresource, in that order, joined by `/`;
when moreover the first non-empty value does not start with `/`, neither does the label. -/
theorem resourceString_join (g v t n s : String) (hg : ¬ startsWithSlash g) :
    resourceString g v t n s = joinNonEmpty [g, v, t, n, s] ∧
    ((∀ x, ([g, v, t, n, s].filter (fun x => x ≠ "")).head? = some x → ¬ startsWithSlash x) →
      ¬ startsWithSlash (resourceString g v t n s)) := by
  refine ⟨resourceString_eq_join g v t n s hg, ?_⟩
  rw [resourceString_eq_join g v t n s hg]
  unfold joinNonEmpty
  by_cases h1 : g = "" <;> by_cases h2 : v = "" <;> by_cases h3 : t = "" <;>
    by_cases h4 : n = "" <;> by_cases h5 : s = "" <;>
    simp [h1, h2, h3, h4, h5, String.intercalate, String.intercalate.go, String.append_assoc,
      startsWithSlash_append, startsWithSlash_empty]

/-- Witness of C5 amended: group `apps`, version `v1`, type `deployments`, name `dep1`, no
subresource. -/
theorem resourceString_join_witness :
    ¬ startsWithSlash "apps" ∧
    resourceString "apps" "v1" "deployments" "dep1" "" = "apps/v1/deployments/dep1" ∧
    ¬ startsWithSlash (resourceString "apps" "v1" "deployments" "dep1" "") :=
  have h := resourceString_join "apps" "v1" "deployments" "dep1" "" (by decide)
  ⟨by decide, h.1.trans (by decide), h.2 (by decide)⟩

/-- C6. When the oracle call succeeds with the answer not allowed, `AccessReview` fails with a
PermissionDenied status error whose message is `user '<identity>' is not allowed to '<verb>'
<label> in namespace '<namespace>'`, the label being the resource string `AccessReview`
builds. -/
theorem AccessReview_denial_message (s : client) (u ns verb g v t n sub : String)
    (review : SubjectAccessReview)
    (h : s.kubeClient (reviewQuery u ns verb g v t n sub) = (review, none))
    (hd : review.Status.Allowed = false) :
    (s.AccessReview u ns verb g v t n sub).err = some (GoError.status Code.PermissionDenied
      ("user '" ++ u ++ "' is not allowed to '" ++ verb ++ "' " ++ resourceString g v t n sub ++
        " in namespace '" ++ ns ++ "'")) :=
  AccessReview_err_of_denied s u ns verb g v t n sub review h hd

/-- Witness of C6: identity alice, verb delete, apps/v1 deployments dep1 in namespace ns1. -/
theorem AccessReview_denial_message_witness :
    ((client.mk oracleDeny).AccessReview "alice" "ns1" "delete" "apps" "v1" "deployments" "dep1"
      "").err = some (GoError.status Code.PermissionDenied
        "user 'alice' is not allowed to 'delete' apps/v1/deployments/dep1 in namespace 'ns1'") :=
  (AccessReview_denial_message (client.mk oracleDeny) "alice" "ns1" "delete" "apps" "v1"
    "deployments" "dep1" "" _ rfl rfl).trans (by decide)

/-- C7. If the oracle call returns an error `e`, `AccessReview` returns exactly `e` after that
single call, whatever the returned review holds; and whenever `AccessReview` returns an error,
`RoundTrip` returns a nil response and exactly that error, without invoking the inner
transport. -/
theorem oracle_error_verbatim :
    (∀ (s : client) (u ns verb g v t n sub : String) (review : SubjectAccessReview)
        (e : GoError),
      s.kubeClient (reviewQuery u ns verb g v t n sub) = (review, some e) →
      s.AccessReview u ns verb g v t n sub =
        { err := some e, calls := [reviewQuery u ns verb g v t n sub] }) ∧
    (∀ (rt : impersonateRoundTripper) (req : Request) (c : Client) (d : ResourceDescriptor)
        (verb : String) (e : GoError),
      GetImpersonateClient req.ctx = some c → extractResource req.URL.Path = some d →
      requestVerb req = .ok verb →
      (c.AccessReview rt.username d.ns verb d.resourceGroup d.resourceVersion d.resourceType
        d.resourceName d.subresource).err = some e →
      (rt.RoundTrip req).resp = none ∧ (rt.RoundTrip req).err = some e ∧
      (rt.RoundTrip req).trace.any Event.isForward = false) := by
  constructor
  · intro s u ns verb g v t n sub review e h
    unfold client.AccessReview
    simp only [h]
  · intro rt req c d verb e hc hp hv he
    rw [RoundTrip_review_err rt req c d verb e hc hp hv he]
    exact ⟨rfl, rfl, any_isForward_map_oracle _⟩

/-- Witness of C7: an oracle whose call fails with `connection refused` while the returned
review says allowed. -/
theorem oracle_error_verbatim_witness :
    (client.mk oracleDown).AccessReview "alice" "ns1" "get" "" "v1" "pods" "pod1" "pod1" =
      { err := some (GoError.other "connection refused")
        calls := [reviewQuery "alice" "ns1" "get" "" "v1" "pods" "pod1" "pod1"] } ∧
    ((NewImpersonateRoundTripper innerOK "alice").RoundTrip
      (sampleRequest "GET" "/api/v1/namespaces/ns1/pods/pod1"
        (some (NewClient oracleDown).1))).err = some (GoError.other "connection refused") :=
  ⟨oracle_error_verbatim.1 (client.mk oracleDown) "alice" "ns1" "get" "" "v1" "pods" "pod1"
      "pod1" _ _ rfl,
    (oracle_error_verbatim.2 (NewImpersonateRoundTripper innerOK "alice")
      (sampleRequest "GET" "/api/v1/namespaces/ns1/pods/pod1" (some (NewClient oracleDown).1))
      (NewClient oracleDown).1 ⟨"ns1", "", "v1", "pods", "pod1", "pod1"⟩ "get"
      (GoError.other "connection refused") rfl (by decide) rfl (by decide)).2.1⟩

/-- C8. `AccessReview` performs exactly one oracle call; its query has the identity as user and
the namespace, verb, group, version, resource, name and subresource of the inputs; and the
returned error is nil exactly when that call succeeded with the answer allowed. -/
theorem AccessReview_single_query (s : client) (u ns verb g v t n sub : String) :
    ∃ q : SubjectAccessReview,
      (s.AccessReview u ns verb g v t n sub).calls = [q] ∧ q.Spec.User = u ∧
      q.Spec.ResourceAttributes =
        { Namespace := ns, Verb := verb, Group := g, Version := v, Resource := t, Name := n,
          Subresource := sub } ∧
      ((s.AccessReview u ns verb g v t n sub).err = none ↔
        (s.kubeClient q).2 = none ∧ (s.kubeClient q).1.Status.Allowed = true) :=
  ⟨reviewQuery u ns verb g v t n sub, AccessReview_calls s u ns verb g v t n sub, rfl, rfl,
    AccessReview_err_none_iff s u ns verb g v t n sub⟩

/-- C9. A path that starts with neither `/api/` nor `/apis/` is not accepted, and with the
client present `RoundTrip` returns the Internal status error whose message is
`Invalid Kubernetes Resource URI path: ` followed by the path, without any oracle call or
forwarding. -/
theorem malformed_prefix_rejected (rt : impersonateRoundTripper) (req : Request) (c : Client)
    (hc : GetImpersonateClient req.ctx = some c) (h1 : ¬ HasPrefix req.URL.Path "/api/")
    (h2 : ¬ HasPrefix req.URL.Path "/apis/") :
    extractResource req.URL.Path = none ∧
    rt.RoundTrip req = ⟨none, some (GoError.status Code.Internal
      ("Invalid Kubernetes Resource URI path: " ++ req.URL.Path)), []⟩ :=
  ⟨extractResource_none_of_no_api _ h1 h2,
    RoundTrip_bad_path rt req c hc (extractResource_none_of_no_api _ h1 h2)⟩

/-- Witness of C9: the path `/healthz/api/v1/pods`. -/
theorem malformed_prefix_rejected_witness :
    ¬ HasPrefix "/healthz/api/v1/pods" "/api/" ∧ ¬ HasPrefix "/healthz/api/v1/pods" "/apis/" ∧
    ((NewImpersonateRoundTripper innerOK "alice").RoundTrip
      (sampleRequest "GET" "/healthz/api/v1/pods" (some (NewClient oracleAllow).1))).err =
      some (GoError.status Code.Internal
        "Invalid Kubernetes Resource URI path: /healthz/api/v1/pods") :=
  ⟨by decide, by decide, congrArg Outcome.err
    (malformed_prefix_rejected (NewImpersonateRoundTripper innerOK "alice")
      (sampleRequest "GET" "/healthz/api/v1/pods" (some (NewClient oracleAllow).1))
      (NewClient oracleAllow).1 rfl (by decide) (by decide)).2⟩

/-- C10. For every accepted path the extracted version and resource type are non-empty; a path
`/api/<v>` or `/apis/<g>/<v>` with no further segment is rejected. -/
theorem descriptor_invariant :
    (∀ (path : String) (d : ResourceDescriptor), extractResource path = some d →
      d.resourceVersion ≠ "" ∧ d.resourceType ≠ "") ∧
    (∀ v : String, '/' ∉ v.data → extractResource ("/api/" ++ v) = none) ∧
    (∀ g v : String, '/' ∉ g.data → '/' ∉ v.data →
      extractResource ("/apis/" ++ g ++ "/" ++ v) = none) :=
  ⟨extractResource_nonempty, extractResource_bare_core, extractResource_bare_grouped⟩

/-- Witness of C10: `/api/v1/pods` is accepted with version `v1` and type `pods`; `/api/v1`
and `/apis/apps/v1` are rejected. -/
theorem descriptor_invariant_witness :
    extractResource "/api/v1/pods" = some ⟨"", "", "v1", "pods", "", ""⟩ ∧
    ("v1" ≠ "" ∧ "pods" ≠ "") ∧
    extractResource "/api/v1" = none ∧ extractResource "/apis/apps/v1" = none :=
  ⟨by decide,
    descriptor_invariant.1 "/api/v1/pods" ⟨"", "", "v1", "pods", "", ""⟩ (by decide),
    descriptor_invariant.2.1 "v1" (by decide),
    descriptor_invariant.2.2 "apps" "v1" (by decide) (by decide)⟩

/-- C13. When the context carries no oracle client, `RoundTrip` returns a nil response and the
Internal status error saying the client is missing, whatever the path and the method are; it
calls neither the oracle nor the inner transport. -/
theorem missing_client_blocks (rt : impersonateRoundTripper) (req : Request)
    (h : GetImpersonateClient req.ctx = none) :
    (rt.RoundTrip req).resp = none ∧
    (rt.RoundTrip req).err = some (GoError.status Code.Internal
      "`impersonate.Client` is missing from HTTP context") ∧
    oracleQueries (rt.RoundTrip req).trace = [] ∧
    forwardedRequests (rt.RoundTrip req).trace = [] := by
  rw [RoundTrip_no_client rt req h]
  exact ⟨rfl, rfl, rfl, rfl⟩

/-- Witness of C13: a request without client, with an unmapped method and a malformed path. -/
theorem missing_client_blocks_witness :
    ((NewImpersonateRoundTripper innerOK "alice").RoundTrip
      (sampleRequest "BREW" "/healthz" none)).err = some (GoError.status Code.Internal
        "`impersonate.Client` is missing from HTTP context") ∧
    forwardedRequests ((NewImpersonateRoundTripper innerOK "alice").RoundTrip
      (sampleRequest "BREW" "/healthz" none)).trace = [] :=
  have h := missing_client_blocks (NewImpersonateRoundTripper innerOK "alice")
    (sampleRequest "BREW" "/healthz" none) rfl
  ⟨h.2.1, h.2.2.2⟩

/-- C14. When the client is present, the path is accepted, the method is mapped and
`AccessReview` returns nil (for `client`: the oracle call succeeded with the answer allowed),
`RoundTrip` hands the very same request to the inner transport exactly once, after the oracle
queries, and returns exactly the response and the error of the inner transport. -/
theorem forwards_unchanged (rt : impersonateRoundTripper) (req : Request) (c : Client)
    (d : ResourceDescriptor) (verb : String)
    (hc : GetImpersonateClient req.ctx = some c) (hp : extractResource req.URL.Path = some d)
    (hv : requestVerb req = .ok verb)
    (he : (c.AccessReview rt.username d.ns verb d.resourceGroup d.resourceVersion d.resourceType
      d.resourceName d.subresource).err = none) :
    (rt.RoundTrip req).resp = (rt.rt req).1 ∧ (rt.RoundTrip req).err = (rt.rt req).2 ∧
    forwardedRequests (rt.RoundTrip req).trace = [req] ∧
    (rt.RoundTrip req).trace =
      (c.AccessReview rt.username d.ns verb d.resourceGroup d.resourceVersion d.resourceType
        d.resourceName d.subresource).calls.map Event.oracle ++ [Event.forward req] := by
  rw [RoundTrip_review_ok rt req c d verb hc hp hv he]
  exact ⟨rfl, rfl, forwardedRequests_append_forward _ _, rfl⟩

/-- Witness of C14: a GET of `/api/v1/namespaces/ns1/pods/pod1` with an oracle that allows. -/
theorem forwards_unchanged_witness :
    ((NewImpersonateRoundTripper innerOK "alice").RoundTrip
      (sampleRequest "GET" "/api/v1/namespaces/ns1/pods/pod1"
        (some (NewClient oracleAllow).1))).resp = some { StatusCode := 200, Body := "ok" } ∧
    ((NewImpersonateRoundTripper innerOK "alice").RoundTrip
      (sampleRequest "GET" "/api/v1/namespaces/ns1/pods/pod1"
        (some (NewClient oracleAllow).1))).err = none :=
  have h := forwards_unchanged (NewImpersonateRoundTripper innerOK "alice")
    (sampleRequest "GET" "/api/v1/namespaces/ns1/pods/pod1" (some (NewClient oracleAllow).1))
    (NewClient oracleAllow).1 ⟨"ns1", "", "v1", "pods", "pod1", "pod1"⟩ "get" rfl (by decide) rfl
    (by decide)
  ⟨h.1, h.2.1⟩

/-- C15. The verb depends on the method alone: two requests with the same method get the same
verb, whatever their paths and queries; `GET` always gives `get` and `DELETE` always gives
`delete`; and the verb of the switch is the verb of the single query `RoundTrip` sends to the
oracle. -/
theorem verb_depends_on_method_only :
    (∀ (r1 r2 : Request) (verb : String), r1.Method = r2.Method →
      requestVerb r1 = .ok verb → requestVerb r2 = .ok verb) ∧
    (∀ (url : URL) (ctx : Context), requestVerb ⟨"GET", url, ctx⟩ = .ok "get" ∧
      requestVerb ⟨"DELETE", url, ctx⟩ = .ok "delete") ∧
    (∀ (rt : impersonateRoundTripper) (req : Request) (kube : KubeInterface)
        (d : ResourceDescriptor) (verb : String),
      GetImpersonateClient req.ctx = some (NewClient kube).1 →
      extractResource req.URL.Path = some d → requestVerb req = .ok verb →
      oracleQueries (rt.RoundTrip req).trace =
        [reviewQuery rt.username d.ns verb d.resourceGroup d.resourceVersion d.resourceType
          d.resourceName d.subresource]) := by
  refine ⟨?_, fun url ctx => ⟨by simp [requestVerb], by simp [requestVerb]⟩, ?_⟩
  · intro r1 r2 verb hm h1
    have hin : r1.Method ∈ mappedMethods := (requestVerb_ok_iff r1).1 ⟨verb, h1⟩
    simp only [mappedMethods, List.mem_cons, List.mem_singleton, List.not_mem_nil,
      or_false] at hin
    rcases hin with h | h | h | h | h | h <;>
      · have h2 := hm ▸ h
        simp [requestVerb, h] at h1
        simp [requestVerb, h2, h1]
  · intro rt req kube d verb hc hp hv
    have hcalls := AccessReview_calls (client.mk kube) rt.username d.ns verb d.resourceGroup
      d.resourceVersion d.resourceType d.resourceName d.subresource
    cases he : ((NewClient kube).1.AccessReview rt.username d.ns verb d.resourceGroup
        d.resourceVersion d.resourceType d.resourceName d.subresource).err with
    | some e =>
      rw [RoundTrip_review_err rt req _ d verb e hc hp hv he]
      show oracleQueries (List.map Event.oracle _) = _
      rw [oracleQueries_map_oracle]
      exact hcalls
    | none =>
      rw [RoundTrip_review_ok rt req _ d verb hc hp hv he]
      show oracleQueries (List.map Event.oracle _ ++ _) = _
      rw [oracleQueries_append_forward]
      exact hcalls

/-- Witness of C15: a `GET` of the collection `/api/v1/pods` with `watch=1` in the query and a
`GET` of a single pod both send the verb `get`; a `DELETE` of the collection sends `delete`. -/
theorem verb_depends_on_method_only_witness :
    requestVerb ⟨"GET", ⟨"/api/v1/pods", "watch=1", "/api/v1/pods?watch=1"⟩,
      ⟨some (NewClient oracleAllow).1⟩⟩ = .ok "get" ∧
    oracleQueries ((NewImpersonateRoundTripper innerOK "alice").RoundTrip
      ⟨"GET", ⟨"/api/v1/pods", "watch=1", "/api/v1/pods?watch=1"⟩,
        ⟨some (NewClient oracleAllow).1⟩⟩).trace =
      [reviewQuery "alice" "" "get" "" "v1" "pods" "" ""] ∧
    oracleQueries ((NewImpersonateRoundTripper innerOK "alice").RoundTrip
      (sampleRequest "DELETE" "/api/v1/namespaces/ns1/pods"
        (some (NewClient oracleAllow).1))).trace =
      [reviewQuery "alice" "ns1" "delete" "" "v1" "pods" "" ""] :=
  ⟨verb_depends_on_method_only.1
      (sampleRequest "GET" "/api/v1/namespaces/ns1/pods/pod1" none)
      ⟨"GET", ⟨"/api/v1/pods", "watch=1", "/api/v1/pods?watch=1"⟩,
        ⟨some (NewClient oracleAllow).1⟩⟩ "get" rfl rfl,
    verb_depends_on_method_only.2.2 (NewImpersonateRoundTripper innerOK "alice")
      ⟨"GET", ⟨"/api/v1/pods", "watch=1", "/api/v1/pods?watch=1"⟩,
        ⟨some (NewClient oracleAllow).1⟩⟩ oracleAllow ⟨"", "", "v1", "pods", "", ""⟩ "get"
      rfl (by decide) rfl,
    verb_depends_on_method_only.2.2 (NewImpersonateRoundTripper innerOK "alice")
      (sampleRequest "DELETE" "/api/v1/namespaces/ns1/pods" (some (NewClient oracleAllow).1))
      oracleAllow ⟨"ns1", "", "v1", "pods", "", ""⟩ "delete" rfl (by decide) rfl⟩

/-- C17. For every accepted path the subresource `RoundTrip` passes equals the resource name it
passes; and two accepted paths whose submatches agree on the groups 1 to 5 give the same
descriptor, whatever the group `SUBRESOURCE` (index 6) matched. -/
theorem subresource_is_name :
    (∀ (path : String) (d : ResourceDescriptor), extractResource path = some d →
      d.subresource = d.resourceName) ∧
    (∀ (p1 p2 : String) (m1 m2 : List String),
      pathPattern.FindStringSubmatch p1 = some m1 →
      pathPattern.FindStringSubmatch p2 = some m2 →
      (∀ i, 1 ≤ i → i ≤ 5 → m1.getD i "" = m2.getD i "") →
      extractResource p1 = extractResource p2) := by
  constructor
  · intro path d h
    rw [extractResource_of_matches] at h
    cases hm : pathPattern.FindStringSubmatch path with
    | none => simp [hm] at h
    | some matched =>
      simp only [hm, Option.map_some', Option.some.injEq] at h
      rw [← h]
  · intro p1 p2 m1 m2 h1 h2 hagree
    rw [extractResource_of_matches, extractResource_of_matches, h1, h2]
    simp only [Option.map_some', hagree 1 (by decide) (by decide),
      hagree 2 (by decide) (by decide), hagree 3 (by decide) (by decide),
      hagree 4 (by decide) (by decide), hagree 5 (by decide) (by decide)]

/-- Witness of C17: the paths ending in `dep1/status` and in `dep1/scale` differ in the group
`SUBRESOURCE` only and give the same descriptor, with subresource `dep1`. -/
theorem subresource_is_name_witness :
    ("dep1" : String) = "dep1" ∧
    extractResource "/apis/apps/v1/namespaces/ns1/deployments/dep1/status" =
      extractResource "/apis/apps/v1/namespaces/ns1/deployments/dep1/scale" :=
  ⟨subresource_is_name.1 "/apis/apps/v1/namespaces/ns1/deployments/dep1/status"
      ⟨"ns1", "apps", "v1", "deployments", "dep1", "dep1"⟩ (by decide),
    subresource_is_name.2 "/apis/apps/v1/namespaces/ns1/deployments/dep1/status"
      "/apis/apps/v1/namespaces/ns1/deployments/dep1/scale"
      ["/apis/apps/v1/namespaces/ns1/deployments/dep1/status", "apps", "v1", "ns1",
        "deployments", "dep1", "status"]
      ["/apis/apps/v1/namespaces/ns1/deployments/dep1/scale", "apps", "v1", "ns1",
        "deployments", "dep1", "scale"]
      (by decide) (by decide) (by
        intro i h1 h5
        interval_cases i <;> rfl)⟩

/-- C20. With the client present a malformed path gives the `Invalid Kubernetes Resource URI
path` error whatever the method is, so also when the method is unmapped; and a request whose
path is malformed or whose method is unmapped causes no oracle call. -/
theorem path_error_first_and_no_query :
    (∀ (rt : impersonateRoundTripper) (req : Request) (c : Client),
      GetImpersonateClient req.ctx = some c → extractResource req.URL.Path = none →
      rt.RoundTrip req = ⟨none, some (GoError.status Code.Internal
        ("Invalid Kubernetes Resource URI path: " ++ req.URL.Path)), []⟩) ∧
    (∀ (rt : impersonateRoundTripper) (req : Request),
      extractResource req.URL.Path = none ∨ req.Method ∉ mappedMethods →
      oracleQueries (rt.RoundTrip req).trace = []) :=
  ⟨fun rt req c hc hp => RoundTrip_bad_path rt req c hc hp,
    fun rt req h => RoundTrip_queries_none_of_bad rt req h⟩

/-- Witness of C20: the method `BREW` on the malformed path `/healthz`, client present. -/
theorem path_error_first_and_no_query_witness :
    "BREW" ∉ mappedMethods ∧
    ((NewImpersonateRoundTripper innerOK "alice").RoundTrip
      (sampleRequest "BREW" "/healthz" (some (NewClient oracleAllow).1))).err =
      some (GoError.status Code.Internal "Invalid Kubernetes Resource URI path: /healthz") ∧
    oracleQueries ((NewImpersonateRoundTripper innerOK "alice").RoundTrip
      (sampleRequest "BREW" "/api/v1/pods" (some (NewClient oracleAllow).1))).trace = [] :=
  ⟨by decide,
    congrArg Outcome.err (path_error_first_and_no_query.1
      (NewImpersonateRoundTripper innerOK "alice")
      (sampleRequest "BREW" "/healthz" (some (NewClient oracleAllow).1))
      (NewClient oracleAllow).1 rfl (by decide)),
    path_error_first_and_no_query.2 (NewImpersonateRoundTripper innerOK "alice")
      (sampleRequest "BREW" "/api/v1/pods" (some (NewClient oracleAllow).1))
      (Or.inr (by decide))⟩

/-- C11. For every accepted path the extracted group is empty exactly when the path starts with
`/api/`; when the path starts with `/apis/`, the group is non-empty and is the segment
directly after `/apis/`, and the version is the segment after that. -/
theorem group_rule (path : String) (d : ResourceDescriptor)
    (h : extractResource path = some d) :
    (d.resourceGroup = "" ↔ HasPrefix path "/api/") ∧
    (HasPrefix path "/apis/" →
      d.resourceGroup ≠ "" ∧ '/' ∉ d.resourceGroup.data ∧ '/' ∉ d.resourceVersion.data ∧
      ∃ rest : String,
        path = "/apis/" ++ d.resourceGroup ++ "/" ++ d.resourceVersion ++ "/" ++ rest) := by
  obtain ⟨p, hv, ht, hd⟩ := extractResource_sound path d h
  obtain ⟨after, hafter, _⟩ := render_after_version p hv
  obtain ⟨hg, hver, _, _, _, _⟩ := hv
  rcases p with ⟨g, v, n, t, m, s⟩
  simp only at hg hver hafter
  subst hd
  cases g with
  | none =>
    have hp : path.data = '/' :: 'a' :: 'p' :: 'i' :: '/' :: (v ++ '/' :: after) := by
      rw [ht, hafter]; rfl
    constructor
    · simp [PathParse.descriptor, optText, HasPrefix, hp]
    · intro hpre
      simp [HasPrefix, hp] at hpre
  | some g =>
    have hp : path.data = '/' :: 'a' :: 'p' :: 'i' :: 's' :: '/' :: (g ++ '/' :: (v ++ '/' :: after)) := by
      rw [ht, hafter]; simp [headPart]
    have hgne : (String.mk g) ≠ "" := fun he =>
      (hg g rfl).1 (by simpa using congrArg String.data he)
    constructor
    · simp [PathParse.descriptor, optText, HasPrefix, hp, hgne]
    · intro _
      refine ⟨hgne, segment_no_slash _ _ (by simp) (hg g rfl),
        segment_no_slash _ _ (by simp) hver, String.mk after, ?_⟩
      apply String.ext
      simp [PathParse.descriptor, optText, String.data_append, hp]

/-- Witness of C11: `/apis/apps/v1/namespaces/ns1/deployments/dep1` has group `apps` and
version `v1`. -/
theorem group_rule_witness :
    ¬ HasPrefix "/apis/apps/v1/namespaces/ns1/deployments/dep1" "/api/" ∧
    ∃ rest : String, "/apis/apps/v1/namespaces/ns1/deployments/dep1" =
      "/apis/" ++ "apps" ++ "/" ++ "v1" ++ "/" ++ rest :=
  have h := group_rule "/apis/apps/v1/namespaces/ns1/deployments/dep1"
    ⟨"ns1", "apps", "v1", "deployments", "dep1", "dep1"⟩ (by decide)
  ⟨by decide, (h.2 (by decide)).2.2.2⟩

/-- C18. For plain segments `v`, `n`, `t`, the path `/api/<v>/namespaces/<n>/<t>` is read as
resource type `t` in namespace `n`, without a resource name, and the path
`/api/<v>/namespaces/<n>` is read as the resource type `namespaces` with resource name `n` and
no namespace. -/
theorem namespaces_disambiguation (v n t : String) (hv : plainSegment v) (hn : plainSegment n)
    (ht : plainSegment t) :
    extractResource ("/api/" ++ v ++ "/namespaces/" ++ n ++ "/" ++ t) =
      some { ns := n, resourceGroup := "", resourceVersion := v, resourceType := t,
             resourceName := "", subresource := "" } ∧
    extractResource ("/api/" ++ v ++ "/namespaces/" ++ n) =
      some { ns := "", resourceGroup := "", resourceVersion := v, resourceType := "namespaces",
             resourceName := n, subresource := n } := by
  constructor
  · rw [extractResource_iff]
    refine ⟨⟨none, v.data, some n.data, t.data, none, none⟩,
      ⟨by simp, (plainSegment_segment v hv).2, ?_, (plainSegment_segment t ht).1, by simp,
        by simp⟩,
      ⟨by simp, by simp⟩, ?_, rfl⟩
    · intro x hx; cases hx; exact (plainSegment_segment n hn).2
    · simp [PathParse.render, headPart, optPart, String.data_append]
  · rw [extractResource_iff]
    refine ⟨⟨none, v.data, none, ['n', 'a', 'm', 'e', 's', 'p', 'a', 'c', 'e', 's'],
        some n.data, none⟩,
      ⟨by simp, (plainSegment_segment v hv).2, by simp, namespaces_segment, ?_, by simp⟩,
      ⟨by simp, by simp⟩, ?_, rfl⟩
    · intro x hx; cases hx; exact (plainSegment_segment n hn).1
    · simp [PathParse.render, headPart, optPart, String.data_append]

/-- Witness of C18: version `v1`, namespace `ns1`, type `pods`. -/
theorem namespaces_disambiguation_witness :
    extractResource "/api/v1/namespaces/ns1/pods" =
      some { ns := "ns1", resourceGroup := "", resourceVersion := "v1", resourceType := "pods",
             resourceName := "", subresource := "" } ∧
    extractResource "/api/v1/namespaces/ns1" =
      some { ns := "", resourceGroup := "", resourceVersion := "v1",
             resourceType := "namespaces", resourceName := "ns1", subresource := "ns1" } :=
  namespaces_disambiguation "v1" "ns1" "pods" (by decide) (by decide) (by decide)

/-- C12. Every accepted path is `apiHead group`, `/`, the version, `/` and a remainder. When the
extracted namespace is non-empty, that remainder is the literal `namespaces`, `/`, the
namespace, `/` and at least one more segment. When the segment directly after the version is
not `namespaces`, the extracted namespace is empty. -/
theorem namespace_rule (path : String) (d : ResourceDescriptor)
    (h : extractResource path = some d) :
    ('/' ∉ d.resourceVersion.data ∧
      ∃ after : String, path = apiHead d.resourceGroup ++ "/" ++ d.resourceVersion ++ "/" ++ after) ∧
    (d.ns ≠ "" → '/' ∉ d.ns.data ∧ ∃ rest : String, rest ≠ "" ∧ ¬ startsWithSlash rest ∧
      path = apiHead d.resourceGroup ++ "/" ++ d.resourceVersion ++ "/namespaces/" ++ d.ns ++
        "/" ++ rest) ∧
    (∀ seg tail : String,
      path = apiHead d.resourceGroup ++ "/" ++ d.resourceVersion ++ "/" ++ seg ++ tail →
      '/' ∉ seg.data → (tail = "" ∨ startsWithSlash tail) → seg ≠ "namespaces" → d.ns = "") := by
  obtain ⟨p, hv, ht, hd⟩ := extractResource_sound path d h
  obtain ⟨after, hafter, hns⟩ := render_after_version p hv
  have hhead := apiHead_data p hv
  have hver : segment ['/'] p.version := hv.2.1
  have hnsv : ∀ n, p.ns = some n → segment ['/'] n := hv.2.2.1
  subst hd
  have hpath : path.data = (apiHead p.descriptor.resourceGroup).data ++
      '/' :: (p.version ++ '/' :: after) := by rw [ht, hafter, hhead]
  have hB : p.descriptor.ns ≠ "" → '/' ∉ p.descriptor.ns.data ∧ ∃ rest : String, rest ≠ "" ∧
      ¬ startsWithSlash rest ∧ path = apiHead p.descriptor.resourceGroup ++ "/" ++
        p.descriptor.resourceVersion ++ "/namespaces/" ++ p.descriptor.ns ++ "/" ++ rest := by
    intro hne
    obtain ⟨n, hn, htext, hseg⟩ := optText_ne_empty p.ns ['/'] hnsv hne
    obtain ⟨rest, hrne, hrhead, hrest⟩ := hns n hn
    have hdn : p.descriptor.ns = String.mk n := htext
    refine ⟨by rw [hdn]; exact segment_no_slash _ _ (by simp) hseg, String.mk rest, ?_, ?_, ?_⟩
    · intro he
      exact hrne (by simpa using congrArg String.data he)
    · simpa [startsWithSlash] using hrhead
    · apply String.ext
      rw [hpath, hrest, hdn]
      simp [String.data_append, PathParse.descriptor]
  refine ⟨⟨segment_no_slash _ _ (by simp) hver, String.mk after, ?_⟩, hB, ?_⟩
  · apply String.ext
    rw [hpath]
    simp [String.data_append, PathParse.descriptor]
  · intro seg tail hform hseg htail hnot
    by_contra hne
    obtain ⟨_, rest, _, _, hrest⟩ := hB hne
    rw [hrest] at hform
    have hdata := congrArg String.data hform
    simp only [String.data_append, List.append_assoc] at hdata
    have h1 := List.append_cancel_left hdata
    have h2 : ("/namespaces/" : String).data ++ (p.descriptor.ns.data ++ (("/" : String).data ++ rest.data)) =
        '/' :: (['n', 'a', 'm', 'e', 's', 'p', 'a', 'c', 'e', 's'] ++
          '/' :: (p.descriptor.ns.data ++ '/' :: rest.data)) := rfl
    have h3 : ("/" : String).data ++ (p.descriptor.resourceVersion.data ++
        (("/" : String).data ++ (seg.data ++ tail.data))) =
        '/' :: (p.descriptor.resourceVersion.data ++ '/' :: (seg.data ++ tail.data)) := rfl
    have h4 : ("/" : String).data ++ (p.descriptor.resourceVersion.data ++
        (("/namespaces/" : String).data ++ (p.descriptor.ns.data ++
          (("/" : String).data ++ rest.data)))) =
        '/' :: (p.descriptor.resourceVersion.data ++ '/' ::
          (['n', 'a', 'm', 'e', 's', 'p', 'a', 'c', 'e', 's'] ++
            '/' :: (p.descriptor.ns.data ++ '/' :: rest.data))) := rfl
    rw [h3, h4] at h1
    have h5 := List.append_cancel_left (List.cons.inj h1).2
    have h6 := (List.cons.inj h5).2
    rcases htail with htl | htl
    · subst htl
      apply hseg
      have : seg.data = ['n', 'a', 'm', 'e', 's', 'p', 'a', 'c', 'e', 's'] ++
          '/' :: (p.descriptor.ns.data ++ '/' :: rest.data) := by
        simpa using h6.symm
      rw [this]
      simp
    · obtain ⟨tl⟩ := tail
      cases tl with
      | nil => simp [startsWithSlash] at htl
      | cons c cs =>
        have hc : c = '/' := by simpa [startsWithSlash] using htl
        subst hc
        have hsp := split_at_slash ['n', 'a', 'm', 'e', 's', 'p', 'a', 'c', 'e', 's'] seg.data
          _ _ (by decide) hseg h6
        exact hnot (String.ext hsp.1.symm)

/-- Witness of C12: `/api/v1/namespaces/ns1/pods` has namespace `ns1`, and the cluster-scoped
`/api/v1/nodes/n1` has none. -/
theorem namespace_rule_witness :
    (∃ rest : String, rest ≠ "" ∧ ¬ startsWithSlash rest ∧ "/api/v1/namespaces/ns1/pods" =
      apiHead "" ++ "/" ++ "v1" ++ "/namespaces/" ++ "ns1" ++ "/" ++ rest) ∧
    extractResource "/api/v1/nodes/n1" = some ⟨"", "", "v1", "nodes", "n1", "n1"⟩ ∧
    ("" : String) = "" :=
  ⟨((namespace_rule "/api/v1/namespaces/ns1/pods" ⟨"ns1", "", "v1", "pods", "", ""⟩
      (by decide)).2.1 (by decide)).2,
    by decide,
    (namespace_rule "/api/v1/nodes/n1" ⟨"", "", "v1", "nodes", "n1", "n1"⟩ (by decide)).2.2
      "nodes" "/n1" (by decide) (by decide) (Or.inr (by decide)) (by decide)⟩

/-- C19. For every accepted path none of the extracted group, version, resource type, resource
name and subresource contains `/`; the label `AccessReview` builds from them equals the
non-empty ones joined by `/`; and it neither starts nor ends with `/` nor contains `//`. -/
theorem label_well_formed (path : String) (d : ResourceDescriptor)
    (h : extractResource path = some d) :
    ('/' ∉ d.resourceGroup.data ∧ '/' ∉ d.resourceVersion.data ∧ '/' ∉ d.resourceType.data ∧
      '/' ∉ d.resourceName.data ∧ '/' ∉ d.subresource.data) ∧
    resourceString d.resourceGroup d.resourceVersion d.resourceType d.resourceName
        d.subresource =
      joinNonEmpty [d.resourceGroup, d.resourceVersion, d.resourceType, d.resourceName,
        d.subresource] ∧
    ¬ startsWithSlash (resourceString d.resourceGroup d.resourceVersion d.resourceType
      d.resourceName d.subresource) ∧
    ¬ endsWithSlash (resourceString d.resourceGroup d.resourceVersion d.resourceType
      d.resourceName d.subresource) ∧
    hasDoubleSlash (resourceString d.resourceGroup d.resourceVersion d.resourceType
      d.resourceName d.subresource).data = false := by
  obtain ⟨p, hv, _, hd⟩ := extractResource_sound path d h
  subst hd
  obtain ⟨h1, h2, h3, h4, h5, _⟩ := descriptor_no_slash p hv
  have hg0 : ¬ startsWithSlash p.descriptor.resourceGroup := by
    intro hs
    apply h1
    unfold startsWithSlash at hs
    exact List.mem_of_mem_head? hs
  obtain ⟨_, s1, s2, s3⟩ := joinSegs_shape _ (by simp) (label_segments p hv)
  rw [← label_data p hv] at s1 s2 s3
  exact ⟨⟨h1, h2, h3, h4, h5⟩, resourceString_eq_join _ _ _ _ _ hg0, s1, s2, s3⟩

/-- Witness of C19: `/apis/apps/v1/namespaces/ns1/deployments/dep1` gives the label
`apps/v1/deployments/dep1/dep1`. -/
theorem label_well_formed_witness :
    resourceString "apps" "v1" "deployments" "dep1" "dep1" = "apps/v1/deployments/dep1/dep1" ∧
    ¬ endsWithSlash (resourceString "apps" "v1" "deployments" "dep1" "dep1") ∧
    hasDoubleSlash (resourceString "apps" "v1" "deployments" "dep1" "dep1").data = false :=
  have h := label_well_formed "/apis/apps/v1/namespaces/ns1/deployments/dep1"
    ⟨"ns1", "apps", "v1", "deployments", "dep1", "dep1"⟩ (by decide)
  ⟨h.2.1.trans (by decide), h.2.2.2.1, h.2.2.2.2⟩

/-- C16. For every path without a newline, the pattern matches the path exactly when the path
is in the grammar of the specification: split on `/`, an empty first piece, then `api`,
version or `apis`, group, version, an optional pair `namespaces`, namespace, and one, two or
three further segments, every segment non-empty. -/
theorem pattern_iff_grammar (path : String) (hnl : '\n' ∉ path.data) :
    (∃ m, pathPattern.FindStringSubmatch path = some m) ↔ specGrammar path := by
  rw [matched_iff_extracted, accepted_iff_valid]
  constructor
  · rintro ⟨p, hv, ht⟩
    exact specGrammar_of_valid path p hv ht
  · exact valid_of_specGrammar path hnl

/-- Witness of C16: `/api/v1/namespaces/ns1/pods/pod1/log` is matched and in the grammar;
`/api/v1/pods/` with its trailing `/` is not matched and not in the grammar. -/
theorem pattern_iff_grammar_witness :
    '\n' ∉ ("/api/v1/namespaces/ns1/pods/pod1/log" : String).data ∧
    specGrammar "/api/v1/namespaces/ns1/pods/pod1/log" ∧ ¬ specGrammar "/api/v1/pods/" :=
  ⟨by decide,
    (pattern_iff_grammar "/api/v1/namespaces/ns1/pods/pod1/log" (by decide)).1
      ⟨["/api/v1/namespaces/ns1/pods/pod1/log", "", "v1", "ns1", "pods", "pod1", "log"],
        by decide⟩,
    fun hg => absurd ((pattern_iff_grammar "/api/v1/pods/" (by decide)).2 hg)
      (by
        have hnone : pathPattern.FindStringSubmatch "/api/v1/pods/" = none := by decide
        rw [hnone]
        simp)⟩

end Argo
